import Mathlib

/-!
# Verification of the s3fs-fuse write-path core against its specification

Shallow embedding of the planner, upload coordinator and string utilities
from `src/string_util.cpp` and `src/fdcache_fdinfo.cpp`.  Byte strings are
modelled as `List Nat` (each element a byte value), file offsets and sizes
as `Nat` (the C++ `off_t` values are non-negative in every reachable state
covered by the theorems below).
-/

namespace S3fs

/-! ## String utilities (`src/string_util.cpp`) -/

/-- One hex digit of the upper-case alphabet `"0123456789ABCDEF"` used by
`s3fs_hex` / `s3fs_hex_upper`. -/
def hexUpperDigit (n : Nat) : Nat :=
  if n < 10 then 48 + n else 65 + (n - 10)

/-- `s3fs_hex_upper` on a single byte: the two hex characters emitted for it. -/
def s3fs_hex_upper_byte (b : Nat) : List Nat :=
  [hexUpperDigit (b / 16), hexUpperDigit (b % 16)]

/-- Is the byte kept verbatim by `rawUrlEncode`?  Mirrors the test
`strchr(except_chars, c) || ('a'<=c<='z') || ('A'<=c<='Z') || ('0'<=c<='9')`. -/
def urlKeepChar (except : List Nat) (c : Nat) : Bool :=
  c ∈ except || (97 ≤ c && c ≤ 122) || (65 ≤ c && c ≤ 90) || (48 ≤ c && c ≤ 57)

/-- `rawUrlEncode` from `string_util.cpp`: kept bytes pass through, any other
byte becomes `'%'` followed by its two upper-case hex digits. -/
def rawUrlEncode (except : List Nat) : List Nat → List Nat
  | [] => []
  | c :: rest =>
    if urlKeepChar except c then
      c :: rawUrlEncode except rest
    else
      37 :: (s3fs_hex_upper_byte c ++ rawUrlEncode except rest)

/-- The except-characters `".-_~"` of `urlEncodeGeneral`. -/
def encode_general_except_chars : List Nat := [46, 45, 95, 126]

/-- The except-characters `".-_~/"` of `urlEncodePath`. -/
def encode_path_except_chars : List Nat := [46, 45, 95, 126, 47]

/-- `urlEncodeGeneral` from `string_util.cpp`. -/
def urlEncodeGeneral (s : List Nat) : List Nat :=
  rawUrlEncode encode_general_except_chars s

/-- The hexadecimal value a character contributes in `urlDecode`: decimal
digits, `A`-`F`, `a`-`f`; anything else contributes `0x00`. -/
def urlHexValue (c : Nat) : Nat :=
  if 48 ≤ c && c ≤ 57 then c - 48
  else if 65 ≤ c && c ≤ 70 then c - 65 + 10
  else if 97 ≤ c && c ≤ 102 then c - 97 + 10
  else 0

/-- Is `c` one of the hexadecimal digit characters `urlDecode` recognizes? -/
def isUrlHexDigit (c : Nat) : Bool :=
  (48 ≤ c && c ≤ 57) || (65 ≤ c && c ≤ 70) || (97 ≤ c && c ≤ 102)

/-- `urlDecode` from `string_util.cpp`.  A non-`%` byte passes through.  At a
`%` the next two bytes are read as hex digits (value `0` for a non-digit);
if fewer than two bytes remain the loop breaks without emitting anything. -/
def urlDecode : List Nat → List Nat
  | [] => []
  | c :: rest =>
    if c ≠ 37 then c :: urlDecode rest
    else
      match rest with
      | [] => []
      | [_] => []
      | d1 :: d2 :: r => (urlHexValue d1 * 16 + urlHexValue d2) :: urlDecode r

/-- `get_encoded_cr_code` from `string_util.cpp`: replaces `'%'` by `"%45"`
and `'\r'` by `"%0D"`, leaving every other byte unchanged. -/
def get_encoded_cr_code : List Nat → List Nat
  | [] => []
  | c :: rest =>
    if c = 37 then 37 :: 52 :: 53 :: get_encoded_cr_code rest
    else if c = 13 then 37 :: 48 :: 68 :: get_encoded_cr_code rest
    else c :: get_encoded_cr_code rest

/-- `get_decoded_cr_code` from `string_util.cpp`: at each `'%'` it checks, in
order, for `"%45"` (giving `'%'`), `"%0D"` (giving `'\r'`), `"%%"` (giving
`'%'`), and otherwise emits the `'%'` and continues one byte later. -/
def get_decoded_cr_code : List Nat → List Nat
  | [] => []
  | 37 :: 52 :: 53 :: r => 37 :: get_decoded_cr_code r
  | 37 :: 48 :: 68 :: r => 13 :: get_decoded_cr_code r
  | 37 :: 37 :: r => 37 :: get_decoded_cr_code r
  | c :: rest =>
    if c = 37 then 37 :: get_decoded_cr_code rest
    else c :: get_decoded_cr_code rest

/-- Does `pat` occur as a contiguous subsequence of the string? -/
def hasSub (pat : List Nat) : List Nat → Bool
  | [] => decide (pat = [])
  | c :: rest => pat.isPrefixOf (c :: rest) || hasSub pat rest

/-! ## Upload coordinator data model (`src/fdcache_fdinfo.cpp`) -/

/-- `filepart`: one part of a multipart upload session.  The `petag` pointer
is modelled by the part number it carries; the file descriptor is omitted. -/
structure Filepart where
  uploaded : Bool
  startpos : Nat
  size : Nat
  is_copy : Bool
  part_num : Nat
deriving DecidableEq

/-- An untreated (locally modified, not yet dispatched) byte range. -/
structure UntreatedPart where
  start : Nat
  size : Nat
deriving DecidableEq

/-- An entry of `mp_part_list_t`: an instruction covering bytes
`[start, start+size)` as part number `part_num`. -/
structure MpPart where
  start : Nat
  size : Nat
  part_num : Nat
deriving DecidableEq

/-- The multipart-session state of a `PseudoFdInfo` that `AppendUploadPart`
reads and writes: the upload id and the ordered part list. -/
structure UploadState where
  upload_id : String
  upload_list : List Filepart
deriving DecidableEq

/-- The starting position the next appended part must have:
`upload_list.back().startpos + upload_list.back().size`, or `0` when the
part list is empty. -/
def nextStartPos (st : UploadState) : Nat :=
  match st.upload_list.getLast? with
  | none => 0
  | some p => p.startpos + p.size

/-- `PseudoFdInfo::AppendUploadPart` (without the fd/etag plumbing): fails
when no multipart session is active (`upload_id` empty) or when the new part
is not exactly contiguous with the previous one; on success appends the part
with part number `upload_list.size() + 1`.  `none` models the C++ `false`
return, which leaves the object untouched. -/
def AppendUploadPart (st : UploadState) (start size : Nat) (is_copy : Bool) :
    Option UploadState :=
  if st.upload_id = "" then none
  else if start ≠ nextStartPos st then none
  else some { st with upload_list :=
    st.upload_list ++ [⟨false, start, size, is_copy, st.upload_list.length + 1⟩] }

/-! ## Boundary-flush path (`UploadBoundaryLastUntreatedArea`) -/

/-- Modelled from the spec: the store-imposed single-copy maximum
`max_copy_part` (5 GiB).  The constant `FIVE_GB` is declared in `common.h`,
which is not part of the sources under `src/`. -/
def FIVE_GB : Nat := 5 * 1024 * 1024 * 1024

/-- Modelled from the spec: the store-imposed minimum part size
`min_part_size` (5 MiB).  The constant `MIN_MULTIPART_SIZE` is declared in
`common.h`, which is not part of the sources under `src/`. -/
def MIN_MULTIPART_SIZE : Nat := 5 * 1024 * 1024

/-- The start position rounded up to the multipart-size boundary, exactly as
`UploadBoundaryLastUntreatedArea` computes it:
`((v / max) + (0 < v % max ? 1 : 0)) * max`. -/
def ceilAlign (v max_mp_size : Nat) : Nat :=
  ((v / max_mp_size) + (if 0 < v % max_mp_size then 1 else 0)) * max_mp_size

/-- The aligned size `UploadBoundaryLastUntreatedArea` computes for the slab:
`(((start + size) - aligned_start) / max) * max`. -/
def boundaryAlignedSize (ls lsz max_mp_size : Nat) : Nat :=
  (((ls + lsz) - ceilAlign ls max_mp_size) / max_mp_size) * max_mp_size

/-- The cancel-scan of `ExtractUploadPartsFromUntreatedArea`: every upload
part overlapping `[astart, astart+asize)` is removed and pushed to the cancel
list, and when it extends past the end of the area the area is widened to
absorb it.  Returns `(final aligned_size, kept parts, cancelled parts)`. -/
def cancelScanUntreated (astart : Nat) : Nat → List Filepart → Nat × List Filepart × List Filepart
  | asize, [] => (asize, [], [])
  | asize, p :: rest =>
    if p.startpos + p.size - 1 < astart ∨ astart + asize - 1 < p.startpos then
      let r := cancelScanUntreated astart asize rest
      (r.1, p :: r.2.1, r.2.2)
    else
      let asize2 :=
        if astart + asize - 1 < p.startpos + p.size - 1 then
          asize + ((p.startpos + p.size) - (astart + asize))
        else asize
      let r := cancelScanUntreated astart asize2 rest
      (r.1, r.2.1, p :: r.2.2)

/-- The emission loop of `ExtractUploadPartsFromUntreatedArea`: starting at
the boundary-aligned `astart`, it emits parts of exactly `max_mp_size` with
part number `astart / max + 1` while at least `max_mp_size` bytes remain.
`fuel` bounds the iterations; the C++ loop terminates because every round
consumes `max_mp_size > 0` bytes, so any `fuel ≥ asize` is enough. -/
def emitAlignedParts (max_mp_size : Nat) : Nat → Nat → Nat → List MpPart
  | 0, _, _ => []
  | fuel + 1, astart, asize =>
    if max_mp_size ≤ asize then
      ⟨astart, max_mp_size, astart / max_mp_size + 1⟩ ::
        emitAlignedParts max_mp_size fuel (astart + max_mp_size) (asize - max_mp_size)
    else []

/-- `PseudoFdInfo::ExtractUploadPartsFromUntreatedArea`.  Returns
`(to_upload_list, cancel_upload_list, remaining upload_list)`; `none` mirrors
the C++ `false` return on invalid parameters (`untreated_size <= 0`). -/
def ExtractUploadPartsFromUntreatedArea (untreated_start untreated_size : Nat)
    (upload_list : List Filepart) (max_mp_size : Nat) :
    Option (List MpPart × List Filepart × List Filepart) :=
  if untreated_size = 0 then none
  else
    let aligned_start := (untreated_start / max_mp_size) * max_mp_size
    let aligned_size := untreated_size + (untreated_start - aligned_start)
    if aligned_size < max_mp_size then some ([], [], upload_list)
    else
      let r := cancelScanUntreated aligned_start aligned_size upload_list
      some (emitAlignedParts max_mp_size r.1 aligned_start r.1, r.2.2, r.2.1)

/-- The planning portion of `PseudoFdInfo::UploadBoundaryLastUntreatedArea`:
from the last updated untreated area it derives the boundary-aligned slab and
runs `ExtractUploadPartsFromUntreatedArea` on it.  Returns
`(to_upload_list, cancel_uploaded_list, remaining upload_list)`; both early
returns (aligned start beyond the area, empty aligned size) emit nothing and
leave the upload list untouched, mirroring the C++ `return 0`. -/
def UploadBoundaryLastUntreatedArea (ls lsz : Nat) (upload_list : List Filepart)
    (max_mp_size : Nat) : Option (List MpPart × List Filepart × List Filepart) :=
  let aligned_start := ceilAlign ls max_mp_size
  if ls + lsz ≤ aligned_start then some ([], [], upload_list)
  else
    let aligned_size := boundaryAlignedSize ls lsz max_mp_size
    if aligned_size = 0 then some ([], [], upload_list)
    else ExtractUploadPartsFromUntreatedArea aligned_start aligned_size upload_list max_mp_size

/-! ## Worker join (`WaitAllThreadsExit`) -/

/-- Modelled from the spec: a completing worker records its errno into
`last_result` under the lock — the first non-zero errno wins and later
results (in particular successes) never overwrite it.  The worker body
(`multipart_upload_part_request`) lives in `s3fs_threadreqs.cpp`, outside
`src/`. -/
def recordWorkerResult (last e : Int) : Int :=
  if last = 0 then e else last

/-- The waiter's control point inside `WaitAllThreadsExit`. -/
inductive WaiterPhase where
  | checkFirst
  | looping
  | done (result : Int)
deriving DecidableEq

/-- Interleaved state of one handle during `WaitAllThreadsExit`: the workers
that have not yet completed (in completion order), the fields guarded by
`upload_list_lock` (`instruct_count`, `last_result`), the counting semaphore
`uploaded_sem`, and the waiter's control point. -/
structure WaitMachine where
  pending : List Int
  instruct_count : Nat
  last_result : Int
  sem : Nat
  phase : WaiterPhase
deriving DecidableEq

/-- Which thread takes the next atomic step. -/
inductive WaitStep where
  | worker
  | waiter
deriving DecidableEq

/-- One interleaving step.  A `worker` step completes the next outstanding
worker: it records its errno and posts the semaphore.  A `waiter` step runs
the next atomic section of `WaitAllThreadsExit`: the initial locked
count-check, or one `uploaded_sem.acquire(); --instruct_count` round that
returns `last_result` when the count reaches zero.  `none` when that thread
cannot step (no worker outstanding, semaphore empty, waiter finished). -/
def waitStep (m : WaitMachine) : WaitStep → Option WaitMachine
  | .worker =>
    match m.pending with
    | [] => none
    | e :: rest =>
      some { m with pending := rest,
                    last_result := recordWorkerResult m.last_result e,
                    sem := m.sem + 1 }
  | .waiter =>
    match m.phase with
    | .checkFirst =>
      if m.instruct_count = 0 then some { m with phase := .done m.last_result }
      else some { m with phase := .looping }
    | .looping =>
      match m.sem with
      | 0 => none
      | s + 1 =>
        let c := m.instruct_count - 1
        if c = 0 then
          some { m with sem := s, instruct_count := c, phase := .done m.last_result }
        else
          some { m with sem := s, instruct_count := c, phase := .looping }
    | .done _ => none

/-- Run an interleaving; steps that are not enabled are skipped (the
scheduler simply does not schedule a blocked thread). -/
def waitRun (m : WaitMachine) : List WaitStep → WaitMachine
  | [] => m
  | s :: rest =>
    match waitStep m s with
    | none => waitRun m rest
    | some m' => waitRun m' rest

/-- A freshly dispatched batch of workers: `instruct_count` counts them
(`IncreaseInstructionCount` per dispatched part), `last_result` is `0`
(`ResetUploadInfo`), the semaphore is empty, and the caller is entering
`WaitAllThreadsExit`. -/
def waitInit (results : List Int) : WaitMachine :=
  { pending := results, instruct_count := results.length, last_result := 0,
    sem := 0, phase := .checkFirst }

/-- The first non-zero errno in completion order, `0` when every worker
succeeded. -/
def firstError (results : List Int) : Int :=
  match results.find? (fun e => e != 0) with
  | none => 0
  | some e => e

/-! ## Whole-file planner (`ExtractUploadPartsFromAllArea`) -/

/-- The size of the current slab: `max_mp_size`, or the remainder of the file
for the final slab (`cur_size = (cur_start + max) <= file_size ? max :
file_size - cur_start`). -/
def slabSize (max_mp_size file_size cur_start : Nat) : Nat :=
  if cur_start + max_mp_size ≤ file_size then max_mp_size else file_size - cur_start

/-- The untreated-extraction loop of `ExtractUploadPartsFromAllArea` for one
current area `[cs, ce)`: untreated areas overlapping it are trimmed to the
area and collected (consumed from the duplicated list); an area reaching past
`ce` is split, its remainder left in the list; the loop stops at the first
area lying beyond `ce`.  Areas wholly before `cs` are skipped (the C++ `++`
leaves them behind the iterator, never to be visited again).  Returns
`(cur_untreated_list, remaining dup_untreated_list)`. -/
def collectUntreated (cs ce : Nat) : List UntreatedPart → List UntreatedPart × List UntreatedPart
  | [] => ([], [])
  | u :: rest =>
    if u.start < ce ∧ cs < u.start + u.size then
      let ts := if u.start < cs then cs else u.start
      let tsz := if u.start < cs then u.size - (cs - u.start) else u.size
      if ts + tsz ≤ ce then
        let r := collectUntreated cs ce rest
        (⟨ts, tsz⟩ :: r.1, r.2)
      else
        ([⟨ts, ce - ts⟩], ⟨ce, (u.start + u.size) - ce⟩ :: rest)
    else if ce - 1 < u.start then
      ([], u :: rest)
    else
      collectUntreated cs ce rest

/-- The continuation of the uploaded-area scan after an overlapping part was
found: any further part overlapping the current area is the unrecoverable
boundary error (`none`); the scan breaks at the first part beyond the area.
Returns `(parts skipped over, rest of the list from the break point)`. -/
def scanAfterOverlap (cs ce : Nat) : List Filepart → Option (List Filepart × List Filepart)
  | [] => some ([], [])
  | p :: rest =>
    if cs < p.startpos + p.size ∧ p.startpos < ce then none
    else if ce - 1 < p.startpos then some ([], p :: rest)
    else
      match scanAfterOverlap cs ce rest with
      | none => none
      | some (sk, r) => some (p :: sk, r)

/-- The uploaded-area scan of `ExtractUploadPartsFromAllArea` for one current
area: finds the unique part overlapping `[cs, ce)` (two overlaps are the
fatal misalignment, giving `none`), breaking at the first part beyond the
area.  Returns `(parts skipped before the overlap, the overlapping part if
any, parts skipped after it, rest of the list from the break point)`. -/
def scanUploaded (cs ce : Nat) :
    List Filepart → Option (List Filepart × Option Filepart × List Filepart × List Filepart)
  | [] => some ([], none, [], [])
  | p :: rest =>
    if cs < p.startpos + p.size ∧ p.startpos < ce then
      match scanAfterOverlap cs ce rest with
      | none => none
      | some (sk, r) => some ([], some p, sk, r)
    else if ce - 1 < p.startpos then some ([], none, [], p :: rest)
    else
      match scanUploaded cs ce rest with
      | none => none
      | some (b, o, a, r) => some (p :: b, o, a, r)

/-- The running state of the gap loop in the no-uploaded-overlap branch of
`ExtractUploadPartsFromAllArea`.  The class-wide output lists `to_copy` and
`to_download` are carried through because the loop may extend the most recent
copy instruction; both are held in reverse order (the head is the most
recently emitted entry, matching the C++ `rbegin()` access). -/
structure GapState where
  tmp_cur_start : Nat
  tmp_cur_size : Nat
  changed_start : Nat
  changed_size : Nat
  to_copy : List MpPart
  to_download : List (Nat × Nat)
deriving DecidableEq

/-- The gap loop over `cur_untreated_list`: a gap in front of an untreated
area is normally a download instruction, but the first gap of the area can be
absorbed into the immediately preceding copy instruction when copy upload is
available, the copy instruction ends exactly at the gap, the united copy
stays within `FIVE_GB`, and at least `MIN_MULTIPART_SIZE` bytes remain for
the upload instruction. -/
def innerGaps (use_copy : Bool) : List UntreatedPart → Bool → GapState → GapState
  | [], _, g => g
  | u :: rest, first_area, g =>
    let g1 :=
      if g.tmp_cur_start < u.start then
        let absorbed : Option (List MpPart) :=
          if first_area && use_copy then
            match g.to_copy with
            | [] => none
            | c :: ctail =>
              if c.start + c.size = g.tmp_cur_start ∧
                  c.size + (u.start - g.tmp_cur_start) ≤ FIVE_GB ∧
                  MIN_MULTIPART_SIZE ≤ (g.tmp_cur_start + g.tmp_cur_size) - u.start then
                some ({ c with size := c.size + (u.start - g.tmp_cur_start) } :: ctail)
              else none
          else none
        match absorbed with
        | some copy2 =>
          { g with to_copy := copy2,
                   changed_size := g.changed_size - (u.start - g.changed_start),
                   changed_start := u.start }
        | none =>
          { g with to_download :=
              (g.tmp_cur_start, u.start - g.tmp_cur_start) :: g.to_download }
      else g
    innerGaps use_copy rest false
      { g1 with tmp_cur_size := (g1.tmp_cur_start + g1.tmp_cur_size) - (u.start + u.size),
                tmp_cur_start := u.start + u.size }

/-- The accumulated outputs of the planner while walking the slabs.  All
lists are in reverse emission order; `kept` holds the upload parts the scan
iterator has passed over and left in `upload_list`. -/
structure PlanAccum where
  to_upload : List MpPart
  to_copy : List MpPart
  to_download : List (Nat × Nat)
  cancel_upload : List Filepart
  wait_upload_complete : Bool
  kept : List Filepart
deriving DecidableEq

/-- One iteration of the slab loop of `ExtractUploadPartsFromAllArea` at
`cur_start`: extract the untreated overlap, find the uploaded overlap, and
emit to the lists according to the four cases of the algorithm.  Returns the
updated accumulator and the remaining untreated/upload suffixes, `none` on
the misaligned-upload-list error. -/
def processSlab (use_copy : Bool) (max_mp_size file_size cur_start : Nat)
    (acc : PlanAccum) (remU : List UntreatedPart) (remP : List Filepart) :
    Option (PlanAccum × List UntreatedPart × List Filepart) :=
  let cur_size := slabSize max_mp_size file_size cur_start
  let ce := cur_start + cur_size
  let col := collectUntreated cur_start ce remU
  match scanUploaded cur_start ce remP with
  | none => none
  | some (before, ovl, after, rest) =>
    let part_num := cur_start / max_mp_size + 1
    match col.1, ovl with
    | [], some p =>
      some ({ acc with kept := (before ++ p :: after).reverse ++ acc.kept }, col.2, rest)
    | [], none =>
      if use_copy then
        some ({ acc with to_copy := ⟨cur_start, cur_size, part_num⟩ :: acc.to_copy,
                         kept := (before ++ after).reverse ++ acc.kept }, col.2, rest)
      else
        some ({ acc with to_download := (cur_start, cur_size) :: acc.to_download,
                         to_upload := ⟨cur_start, cur_size, part_num⟩ :: acc.to_upload,
                         kept := (before ++ after).reverse ++ acc.kept }, col.2, rest)
    | _ :: _, some p =>
      some ({ acc with
                wait_upload_complete := acc.wait_upload_complete || !p.uploaded,
                cancel_upload := p :: acc.cancel_upload,
                to_upload := ⟨cur_start, cur_size, part_num⟩ :: acc.to_upload,
                kept := before.reverse ++ acc.kept }, col.2, after ++ rest)
    | u :: urest, none =>
      let g := innerGaps use_copy (u :: urest) true
        ⟨cur_start, cur_size, cur_start, cur_size, acc.to_copy, acc.to_download⟩
      let dl := if 0 < g.tmp_cur_size then
          (g.tmp_cur_start, g.tmp_cur_size) :: g.to_download
        else g.to_download
      some ({ acc with to_copy := g.to_copy, to_download := dl,
                       to_upload := ⟨g.changed_start, g.changed_size, part_num⟩ :: acc.to_upload,
                       kept := (before ++ after).reverse ++ acc.kept }, col.2, rest)

/-- The slab loop: walk the file in `slabSize` steps from offset `0`.  `fuel`
bounds the number of iterations; any `fuel ≥ file_size / max + 1` is enough
because every slab but the last advances by exactly `max_mp_size`. -/
def planLoop (use_copy : Bool) (max_mp_size file_size : Nat) :
    Nat → Nat → PlanAccum → List UntreatedPart → List Filepart →
    Option (PlanAccum × List Filepart)
  | 0, cur_start, acc, _, remP =>
    if cur_start < file_size then none else some (acc, remP)
  | fuel + 1, cur_start, acc, remU, remP =>
    if cur_start < file_size then
      match processSlab use_copy max_mp_size file_size cur_start acc remU remP with
      | none => none
      | some (acc2, remU2, remP2) =>
        planLoop use_copy max_mp_size file_size fuel
          (cur_start + slabSize max_mp_size file_size cur_start) acc2 remU2 remP2
    else some (acc, remP)

/-- The planner's outputs: the four instruction lists, the wait flag, and the
upload list as it is left after the planner erased the cancelled parts. -/
structure PlanResult where
  to_upload : List MpPart
  to_copy : List MpPart
  to_download : List (Nat × Nat)
  cancel_upload : List Filepart
  wait_upload_complete : Bool
  upload_list : List Filepart
deriving DecidableEq

/-- `PseudoFdInfo::ExtractUploadPartsFromAllArea`: `none` mirrors the C++
`false` return when the upload list is found misaligned with the slab
boundaries. -/
def ExtractUploadPartsFromAllArea (untreated_list : List UntreatedPart)
    (upload_list : List Filepart) (max_mp_size file_size : Nat) (use_copy : Bool) :
    Option PlanResult :=
  match planLoop use_copy max_mp_size file_size (file_size / max_mp_size + 1) 0
      ⟨[], [], [], [], false, []⟩ untreated_list upload_list with
  | none => none
  | some (acc, remP) =>
    some ⟨acc.to_upload.reverse, acc.to_copy.reverse, acc.to_download.reverse,
          acc.cancel_upload.reverse, acc.wait_upload_complete,
          acc.kept.reverse ++ remP⟩

/-- Does the byte range `r` (a start/size pair) contain offset `x`? -/
def coverBool (x : Nat) (r : Nat × Nat) : Bool :=
  decide (r.1 ≤ x) && decide (x < r.1 + r.2)

/-- How many of the ranges contain offset `x`. -/
def countCover (ranges : List (Nat × Nat)) (x : Nat) : Nat :=
  ranges.countP (coverBool x)

/-- The byte ranges of a list of multipart instructions. -/
def mpRanges (l : List MpPart) : List (Nat × Nat) :=
  l.map fun p => (p.start, p.size)

/-- The byte ranges of a list of upload parts. -/
def fpRanges (l : List Filepart) : List (Nat × Nat) :=
  l.map fun p => (p.startpos, p.size)

/-- The ranges C1 counts: `to_upload`, `to_copy`, and the upload parts that
remain in the part list after planning. -/
def resultRanges (res : PlanResult) : List (Nat × Nat) :=
  mpRanges res.to_upload ++ mpRanges res.to_copy ++ fpRanges res.upload_list

/-- The ranges accumulated so far during the slab walk. -/
def accRanges (acc : PlanAccum) : List (Nat × Nat) :=
  mpRanges acc.to_upload ++ mpRanges acc.to_copy ++ fpRanges acc.kept

/-- The layout the planner assumes of the already-submitted upload parts:
each is aligned to a slab boundary, exactly one slab long, and inside the
file. -/
def PartsAligned (max_mp_size file_size : Nat) (l : List Filepart) : Prop :=
  ∀ p ∈ l, p.startpos % max_mp_size = 0 ∧ p.size = max_mp_size ∧
    p.startpos + p.size ≤ file_size

/-- Untreated ranges are ordered and disjoint (the `PageList` coalesces and
sorts them). -/
def UntreatedOrdered (l : List UntreatedPart) : Prop :=
  l.Pairwise fun a b => a.start + a.size ≤ b.start

/-- Upload parts are ordered and disjoint by offset. -/
def PartsOrdered (l : List Filepart) : Prop :=
  l.Pairwise fun a b => a.startpos + a.size ≤ b.startpos

/-- The size discipline of the emitted instruction lists (claim C2 amended):
an upload instruction never exceeds `max_mp_size` and is exactly one slab
unless it ends the file or was shortened by copy-absorption (then it is at
least `MIN_MULTIPART_SIZE`); a copy instruction never exceeds the larger of
`max_mp_size` and `FIVE_GB`. -/
def SizeInv (max_mp_size file_size : Nat) (to_upload to_copy : List MpPart) : Prop :=
  (∀ e ∈ to_upload, e.size ≤ max_mp_size ∧
    (e.size = max_mp_size ∨ e.start + e.size = file_size ∨
      (MIN_MULTIPART_SIZE ≤ e.size ∧ e.size < max_mp_size))) ∧
  (∀ c ∈ to_copy, c.size ≤ Nat.max max_mp_size FIVE_GB)

/-- The absorption test of the gap loop, as the code states it: copy upload
in use, a previous copy instruction exists, it is contiguous with the gap,
the united copy stays within `FIVE_GB`, and the remaining upload is at least
`MIN_MULTIPART_SIZE`. -/
def gapAbsorbCond (use_copy : Bool) (copy : List MpPart) (tcs tcsz ustart : Nat) : Bool :=
  match use_copy, copy with
  | true, c :: _ =>
    decide (c.start + c.size = tcs) && decide (c.size + (ustart - tcs) ≤ FIVE_GB) &&
      decide (MIN_MULTIPART_SIZE ≤ (tcs + tcsz) - ustart)
  | _, _ => false

/-- The copy list after its most recent entry absorbed a gap of `g` bytes. -/
def gapAbsorbedCopy (copy : List MpPart) (g : Nat) : List MpPart :=
  match copy with
  | [] => []
  | c :: ctail => { c with size := c.size + g } :: ctail

/-! ## Theorems: string utilities -/

lemma urlHexValue_hexUpperDigit : ∀ n, n < 16 → urlHexValue (hexUpperDigit n) = n := by
  decide

/-- Helper for C8: a byte kept verbatim by the encoder is never `'%'`, as long
as the except-characters do not contain `'%'`. -/
lemma urlKeepChar_ne_percent (except : List Nat) (hpc : 37 ∉ except) (c : Nat)
    (hk : urlKeepChar except c = true) : c ≠ 37 := by
  have h' : ((c ∈ except ∨ (97 ≤ c ∧ c ≤ 122)) ∨ (65 ≤ c ∧ c ≤ 90)) ∨
      (48 ≤ c ∧ c ≤ 57) := by
    simpa [urlKeepChar] using hk
  rcases h' with ((h | h) | h) | h
  · intro e; subst e; exact hpc h
  all_goals omega

/-- C8 (amended, decode-after-encode direction): for every byte string and any
except-character list not containing `'%'`, `urlDecode` is a left inverse of
`rawUrlEncode`. -/
theorem C8_urlDecode_rawUrlEncode (except : List Nat) (hpc : 37 ∉ except) :
    ∀ l : List Nat, (∀ b ∈ l, b < 256) → urlDecode (rawUrlEncode except l) = l := by
  intro l hb
  induction l with
  | nil => rfl
  | cons c rest ih =>
    have hc : c < 256 := hb c (by simp)
    have hrest : ∀ b ∈ rest, b < 256 := fun b hbm => hb b (by simp [hbm])
    by_cases hk : urlKeepChar except c
    · have hc37 : c ≠ 37 := urlKeepChar_ne_percent except hpc c hk
      have e1 : rawUrlEncode except (c :: rest) = c :: rawUrlEncode except rest := by
        rw [rawUrlEncode.eq_def]; simp [hk]
      rw [e1, urlDecode.eq_def]
      simp [hc37, ih hrest]
    · have h1 : urlHexValue (hexUpperDigit (c / 16)) = c / 16 :=
        urlHexValue_hexUpperDigit _ (by omega)
      have h2 : urlHexValue (hexUpperDigit (c % 16)) = c % 16 :=
        urlHexValue_hexUpperDigit _ (by omega)
      have e1 : rawUrlEncode except (c :: rest) =
          37 :: (s3fs_hex_upper_byte c ++ rawUrlEncode except rest) := by
        rw [rawUrlEncode.eq_def]; simp [hk]
      rw [e1, s3fs_hex_upper_byte]
      rw [urlDecode.eq_def]
      simp [h1, h2, ih hrest]
      omega

/-- C8 counterexample: the encode-after-decode direction fails on the plain
ASCII string `" "` (byte 32): decoding leaves it unchanged and the encoder
turns it into `"%20"`. -/
theorem C8_counterexample :
    (∀ b ∈ [32], b < 128) ∧ urlEncodeGeneral (urlDecode [32]) ≠ [32] := by
  decide

/-- Witness for `C8_urlDecode_rawUrlEncode` at a concrete byte string. -/
theorem C8_witness :
    37 ∉ encode_general_except_chars ∧ (∀ b ∈ [0, 37, 65, 255], b < 256) ∧
      urlDecode (rawUrlEncode encode_general_except_chars [0, 37, 65, 255]) =
        [0, 37, 65, 255] :=
  ⟨by decide, by decide,
    C8_urlDecode_rawUrlEncode encode_general_except_chars (by decide) _ (by decide)⟩

/-- C9 (amended, decode-after-encode direction): `get_decoded_cr_code` is a
left inverse of `get_encoded_cr_code` on every string. -/
theorem C9_cr_round_trip (s : List Nat) :
    get_decoded_cr_code (get_encoded_cr_code s) = s := by
  induction s with
  | nil => rfl
  | cons c rest ih =>
    by_cases h37 : c = 37
    · subst h37; simp [get_encoded_cr_code, get_decoded_cr_code, ih]
    · by_cases h13 : c = 13
      · subst h13; simp [get_encoded_cr_code, get_decoded_cr_code, ih]
      · simp [get_encoded_cr_code, h37, h13, get_decoded_cr_code, ih]

/-- C9 counterexample: `"%"` contains neither `"%45"` nor `"%0D"`, yet
decoding leaves it as `"%"` and re-encoding gives `"%45"`, not `"%"`. -/
theorem C9_counterexample :
    hasSub [37, 52, 53] [37] = false ∧ hasSub [37, 48, 68] [37] = false ∧
      get_encoded_cr_code (get_decoded_cr_code [37]) ≠ [37] := by
  decide

/-- C10: `urlDecode` is total and silent on malformed input: a `'%'` escape
whose first character is not a hex digit contributes digit value `0`, and a
`'%'` with fewer than two following characters produces no output byte and
ends decoding. -/
theorem C10_urlDecode_malformed (c1 c2 : Nat) (rest : List Nat)
    (h : isUrlHexDigit c1 = false) :
    urlHexValue c1 = 0 ∧
      urlDecode (37 :: c1 :: c2 :: rest) =
        (urlHexValue c1 * 16 + urlHexValue c2) :: urlDecode rest ∧
      urlDecode [37] = [] ∧ urlDecode [37, c1] = [] := by
  refine ⟨?_, rfl, rfl, rfl⟩
  simp only [isUrlHexDigit, Bool.or_eq_false_iff, Bool.and_eq_false_iff] at h
  simp only [urlHexValue]
  obtain ⟨⟨h1, h2⟩, h3⟩ := h
  split
  · rename_i hc; rcases h1 with h1 | h1 <;> rcases h2 with h2 | h2 <;> simp_all
  · split
    · rename_i hc; rcases h2 with h2 | h2 <;> simp_all
    · split
      · rename_i hc; rcases h3 with h3 | h3 <;> simp_all
      · rfl

/-- Witness for `C10_urlDecode_malformed` at `'%', 'G', '2'`. -/
theorem C10_witness :
    isUrlHexDigit 71 = false ∧
      (urlHexValue 71 = 0 ∧
        urlDecode [37, 71, 50, 65] = (urlHexValue 71 * 16 + urlHexValue 50) :: urlDecode [65] ∧
        urlDecode [37] = [] ∧ urlDecode [37, 71] = []) :=
  ⟨by decide, C10_urlDecode_malformed 71 50 [65] (by decide)⟩

/-! ## Theorems: AppendUploadPart (C5) -/

/-- C5: `AppendUploadPart` succeeds exactly when a multipart session is
active and the new part starts where the previous part ends (`0` on an empty
list); on success the part is appended with part number `length + 1`; on
failure nothing is modified. -/
theorem C5_AppendUploadPart (st : UploadState) (start size : Nat) (c : Bool) :
    match AppendUploadPart st start size c with
    | none => st.upload_id = "" ∨ start ≠ nextStartPos st
    | some st' =>
        st.upload_id ≠ "" ∧ start = nextStartPos st ∧ st'.upload_id = st.upload_id ∧
        st'.upload_list =
          st.upload_list ++ [⟨false, start, size, c, st.upload_list.length + 1⟩] := by
  by_cases h1 : st.upload_id = ""
  · simp [AppendUploadPart, h1]
  · by_cases h2 : start = nextStartPos st
    · simp [AppendUploadPart, h1, h2]
    · simp [AppendUploadPart, h1, h2]

/-! ## Theorems: boundary flush (C6) -/

/-- The cancel-scan can only widen the aligned area. -/
lemma cancelScanUntreated_size_le (astart : Nat) :
    ∀ (l : List Filepart) (asize : Nat), asize ≤ (cancelScanUntreated astart asize l).1 := by
  intro l
  induction l with
  | nil => intro asize; simp [cancelScanUntreated]
  | cons p rest ih =>
    intro asize
    by_cases h : p.startpos + p.size - 1 < astart ∨ astart + asize - 1 < p.startpos
    · simpa [cancelScanUntreated, h] using ih asize
    · simp only [cancelScanUntreated, if_neg h]
      split
      · exact le_trans (by omega) (ih _)
      · exact ih _

/-- With positive `max_mp_size`, at least `max_mp_size` bytes remaining and
fuel at least one, the emission loop emits a part. -/
lemma emitAlignedParts_ne_nil (max_mp_size fuel astart asize : Nat)
    (hfuel : 1 ≤ fuel) (h : max_mp_size ≤ asize) :
    emitAlignedParts max_mp_size fuel astart asize ≠ [] := by
  match fuel, hfuel with
  | f + 1, _ => simp [emitAlignedParts, h]

/-- C6: the boundary-flush path emits no upload parts — succeeding with the
upload list unchanged — unless the last untreated area, its start rounded up
to the multipart boundary, still spans at least one full `max_mp_size` slab;
and when it does span one, at least one part is emitted. -/
theorem C6_UploadBoundaryLastUntreatedArea (ls lsz max_mp_size : Nat)
    (ul : List Filepart) (hmax : 0 < max_mp_size) (_hsz : 0 < lsz) :
    (¬ (ceilAlign ls max_mp_size < ls + lsz ∧
          max_mp_size ≤ boundaryAlignedSize ls lsz max_mp_size) →
        UploadBoundaryLastUntreatedArea ls lsz ul max_mp_size = some ([], [], ul)) ∧
    ((ceilAlign ls max_mp_size < ls + lsz ∧
          max_mp_size ≤ boundaryAlignedSize ls lsz max_mp_size) →
        ∃ up cancel ul',
          UploadBoundaryLastUntreatedArea ls lsz ul max_mp_size = some (up, cancel, ul') ∧
            up ≠ []) := by
  constructor
  · intro hnot
    by_cases h1 : ls + lsz ≤ ceilAlign ls max_mp_size
    · simp [UploadBoundaryLastUntreatedArea, h1]
    · have h2 : boundaryAlignedSize ls lsz max_mp_size < max_mp_size := by
        rcases Decidable.not_and_iff_or_not.mp hnot with h | h
        · omega
        · omega
      have h3 : boundaryAlignedSize ls lsz max_mp_size = 0 := by
        have := Nat.div_mul_le_self ((ls + lsz) - ceilAlign ls max_mp_size) max_mp_size
        unfold boundaryAlignedSize at h2 ⊢
        rcases Nat.eq_zero_or_pos (((ls + lsz) - ceilAlign ls max_mp_size) / max_mp_size)
          with hq | hq
        · simp [hq]
        · nlinarith [Nat.mul_le_mul_right max_mp_size hq]
      simp [UploadBoundaryLastUntreatedArea, h1, h3]
  · rintro ⟨h1, h2⟩
    have h1' : ¬ (ls + lsz ≤ ceilAlign ls max_mp_size) := by omega
    have h2' : ¬ (boundaryAlignedSize ls lsz max_mp_size = 0) := by omega
    have hdvd : max_mp_size ∣ ceilAlign ls max_mp_size := by
      refine ⟨(ls / max_mp_size) + (if 0 < ls % max_mp_size then 1 else 0), ?_⟩
      unfold ceilAlign; ring
    have hfloor : (ceilAlign ls max_mp_size / max_mp_size) * max_mp_size =
        ceilAlign ls max_mp_size := Nat.div_mul_cancel hdvd
    have hsz0 : ¬ (boundaryAlignedSize ls lsz max_mp_size = 0) := h2'
    unfold UploadBoundaryLastUntreatedArea
    rw [if_neg h1', if_neg h2']
    unfold ExtractUploadPartsFromUntreatedArea
    rw [if_neg hsz0, hfloor]
    have harea : ¬ (boundaryAlignedSize ls lsz max_mp_size +
        (ceilAlign ls max_mp_size - ceilAlign ls max_mp_size) < max_mp_size) := by
      omega
    rw [if_neg harea]
    refine ⟨_, _, _, rfl, ?_⟩
    have hle : max_mp_size ≤ (cancelScanUntreated (ceilAlign ls max_mp_size)
        (boundaryAlignedSize ls lsz max_mp_size +
          (ceilAlign ls max_mp_size - ceilAlign ls max_mp_size)) ul).1 :=
      le_trans (by omega) (cancelScanUntreated_size_le _ ul _)
    exact emitAlignedParts_ne_nil _ _ _ _ (by omega) hle

/-- Witness for `C6_UploadBoundaryLastUntreatedArea`: with `max = 10` and the
last untreated area `[5, 30)`, the aligned slab `[10, 30)` yields parts. -/
theorem C6_witness :
    0 < 10 ∧ 0 < 25 ∧
      ∃ up cancel ul',
        UploadBoundaryLastUntreatedArea 5 25 [] 10 = some (up, cancel, ul') ∧ up ≠ [] :=
  ⟨by decide, by decide,
    (C6_UploadBoundaryLastUntreatedArea 5 25 10 [] (by decide) (by decide)).2 (by decide)⟩

/-! ## Theorems: worker join (C7) -/

/-- Folding the recording function over the completion sequence yields the
first non-zero errno. -/
lemma foldl_recordWorkerResult (l : List Int) :
    ∀ a : Int, l.foldl recordWorkerResult a = if a = 0 then firstError l else a := by
  induction l with
  | nil => intro a; by_cases ha : a = 0 <;> simp [firstError, ha]
  | cons e rest ih =>
    intro a
    by_cases ha : a = 0
    · subst ha
      by_cases he : e = 0
      · subst he
        simp only [List.foldl_cons, recordWorkerResult, if_pos rfl, ih]
        simp [firstError, List.find?]
      · rw [List.foldl_cons]
        have h1 : recordWorkerResult 0 e = e := by simp [recordWorkerResult]
        rw [h1, ih e, if_neg he, if_pos rfl]
        unfold firstError
        rw [List.find?_cons_of_pos _ (by simpa using he)]
    · simp [List.foldl_cons, recordWorkerResult, ha, ih]

/-- The interleaving invariant of `WaitMachine` runs started from
`waitInit`. -/
def WaitInv (results : List Int) (m : WaitMachine) : Prop :=
  ∃ fin, results = fin ++ m.pending ∧
    m.last_result = fin.foldl recordWorkerResult 0 ∧
    m.instruct_count ≤ results.length ∧
    m.sem + (results.length - m.instruct_count) = fin.length ∧
    (∀ r, m.phase = .done r → m.instruct_count = 0 ∧ r = firstError results)

lemma waitInv_init (results : List Int) : WaitInv results (waitInit results) := by
  refine ⟨[], by simp [waitInit], by simp [waitInit], by simp [waitInit],
    by simp [waitInit], ?_⟩
  intro r hr
  simp [waitInit] at hr

lemma waitInv_step (results : List Int) (m m' : WaitMachine) (s : WaitStep)
    (hinv : WaitInv results m) (hstep : waitStep m s = some m') :
    WaitInv results m' := by
  obtain ⟨fin, hfin, hlast, hcnt, hsem, hdone⟩ := hinv
  have hlen : fin.length + m.pending.length = results.length := by
    rw [hfin]; simp
  cases s with
  | worker =>
    match hp : m.pending with
    | [] => simp [waitStep, hp] at hstep
    | e :: rest =>
      simp only [waitStep, hp, Option.some.injEq] at hstep
      subst hstep
      refine ⟨fin ++ [e], ?_, ?_, ?_, ?_, ?_⟩
      · rw [hfin, hp]; simp
      · simp [List.foldl_append, hlast]
      · simpa using hcnt
      · simp; omega
      · intro r hr
        simp only at hr
        exact hdone r hr
  | waiter =>
    match hph : m.phase with
    | .checkFirst =>
      simp only [waitStep, hph] at hstep
      by_cases hc : m.instruct_count = 0
      · rw [if_pos hc] at hstep
        simp only [Option.some.injEq] at hstep
        subst hstep
        have hflen : fin.length = results.length := by omega
        have hpend : m.pending = [] := by
          have : m.pending.length = 0 := by omega
          exact List.length_eq_zero.mp this
        have hfin' : fin = results := by rw [hfin, hpend, List.append_nil]
        refine ⟨fin, by simpa using hfin, by simpa using hlast, by simpa using hcnt,
          by simp; omega, ?_⟩
        intro r hr
        simp only [WaiterPhase.done.injEq] at hr
        refine ⟨by simpa using hc, ?_⟩
        rw [← hr, hlast, foldl_recordWorkerResult, if_pos rfl, hfin']
      · rw [if_neg hc] at hstep
        simp only [Option.some.injEq] at hstep
        subst hstep
        exact ⟨fin, by simpa using hfin, by simpa using hlast, by simpa using hcnt,
          by simpa using hsem, by intro r hr; simp at hr⟩
    | .looping =>
      match hs : m.sem with
      | 0 => simp [waitStep, hph, hs] at hstep
      | s + 1 =>
        simp only [waitStep, hph, hs] at hstep
        have hcount1 : 1 ≤ m.instruct_count := by
          by_contra hh
          have : m.instruct_count = 0 := by omega
          omega
        by_cases hc : m.instruct_count - 1 = 0
        · rw [if_pos hc] at hstep
          simp only [Option.some.injEq] at hstep
          subst hstep
          have hflen : fin.length = s + results.length := by omega
          have hflen' : fin.length ≤ results.length := by omega
          have hs0 : s = 0 := by omega
          have hpend : m.pending = [] := by
            have : m.pending.length = 0 := by omega
            exact List.length_eq_zero.mp this
          have hfin' : fin = results := by rw [hfin, hpend, List.append_nil]
          refine ⟨fin, by simpa using hfin, by simpa using hlast, by simp; omega,
            by simp; omega, ?_⟩
          intro r hr
          simp only [WaiterPhase.done.injEq] at hr
          refine ⟨by simpa using hc, ?_⟩
          rw [← hr, hlast, foldl_recordWorkerResult, if_pos rfl, hfin']
        · rw [if_neg hc] at hstep
          simp only [Option.some.injEq] at hstep
          subst hstep
          refine ⟨fin, by simpa using hfin, by simpa using hlast, by simp; omega,
            by simp; omega, ?_⟩
          intro r hr
          simp at hr
    | .done r => simp [waitStep, hph] at hstep

/-- Runs preserve the invariant. -/
lemma waitInv_run (results : List Int) (trace : List WaitStep) (m : WaitMachine)
    (hinv : WaitInv results m) : WaitInv results (waitRun m trace) := by
  induction trace generalizing m with
  | nil => simpa [waitRun] using hinv
  | cons s rest ih =>
    simp only [waitRun]
    match hstep : waitStep m s with
    | none => exact ih m hinv
    | some m' => exact ih m' (waitInv_step results m m' s hinv hstep)

/-- C7: whatever the interleaving of worker completions and the waiting
thread, if `WaitAllThreadsExit` has returned `r`, then `instruct_count` was
observed equal to zero under the upload-list lock (and is still zero), and
`r` is the first non-zero errno recorded by any worker — `0` when none
failed — which later successes never overwrote. -/
theorem C7_WaitAllThreadsExit (results : List Int) (trace : List WaitStep) (r : Int)
    (hdone : (waitRun (waitInit results) trace).phase = .done r) :
    (waitRun (waitInit results) trace).instruct_count = 0 ∧ r = firstError results := by
  obtain ⟨fin, _, _, _, _, hdoneinv⟩ :=
    waitInv_run results trace (waitInit results) (waitInv_init results)
  exact hdoneinv r hdone

/-! ## Theorems: whole-file planner — bookkeeping lemmas -/

lemma countP_reverse_eq {α : Type} (p : α → Bool) (l : List α) :
    l.reverse.countP p = l.countP p := by
  simp [List.countP_eq_length_filter, List.filter_reverse]

lemma countCover_append (r1 r2 : List (Nat × Nat)) (x : Nat) :
    countCover (r1 ++ r2) x = countCover r1 x + countCover r2 x := by
  simp [countCover, List.countP_append]

lemma countCover_cons (s z : Nat) (rs : List (Nat × Nat)) (x : Nat) :
    countCover ((s, z) :: rs) x =
      countCover rs x + (if s ≤ x ∧ x < s + z then 1 else 0) := by
  simp only [countCover, List.countP_cons, coverBool]
  by_cases h1 : s ≤ x <;> by_cases h2 : x < s + z <;> simp [h1, h2]

lemma countCover_reverse (rs : List (Nat × Nat)) (x : Nat) :
    countCover rs.reverse x = countCover rs x :=
  countP_reverse_eq _ rs

lemma countCover_nil (x : Nat) : countCover [] x = 0 := rfl

/-- Two multiples of `m` within one slab of each other are equal. -/
lemma multiple_eq_of_lt_add (m cs q : Nat) (hm : 0 < m) (h1 : m ∣ cs) (h2 : m ∣ q)
    (h3 : cs ≤ q) (h4 : q < cs + m) : q = cs := by
  obtain ⟨a, rfl⟩ := h1
  obtain ⟨b, rfl⟩ := h2
  have ha : a ≤ b := Nat.le_of_mul_le_mul_left h3 hm
  have hb : b < a + 1 := by
    have : m * b < m * (a + 1) := by
      calc m * b < m * a + m := h4
      _ = m * (a + 1) := by ring
    exact Nat.lt_of_mul_lt_mul_left this
  have : a = b := by omega
  subst this
  rfl

/-- The current slab is non-empty, ends inside the file, and is either a full
slab or ends the file. -/
lemma slabSize_spec (max_mp_size file_size cur_start : Nat) (hmax : 0 < max_mp_size)
    (hlt : cur_start < file_size) :
    0 < slabSize max_mp_size file_size cur_start ∧
      cur_start + slabSize max_mp_size file_size cur_start ≤ file_size ∧
      (slabSize max_mp_size file_size cur_start = max_mp_size ∨
        cur_start + slabSize max_mp_size file_size cur_start = file_size) ∧
      slabSize max_mp_size file_size cur_start ≤ max_mp_size := by
  unfold slabSize
  split
  · exact ⟨hmax, by omega, Or.inl rfl, le_refl _⟩
  · exact ⟨by omega, by omega, Or.inr (by omega), by omega⟩

/-- What the untreated-extraction loop produces for one slab under the
planner's preconditions: collected pieces are inside the slab, positive and
ordered, keep the start offsets of list members, and the remaining list lies
at or beyond the slab end. -/
lemma collectUntreated_spec (cs csz : Nat) (hcsz : 0 < csz) :
    ∀ l : List UntreatedPart, (∀ u ∈ l, 0 < u.size ∧ cs ≤ u.start) →
      UntreatedOrdered l →
      (∀ v ∈ (collectUntreated cs (cs + csz) l).1,
          cs ≤ v.start ∧ v.start + v.size ≤ cs + csz ∧ 0 < v.size) ∧
      (∀ v ∈ (collectUntreated cs (cs + csz) l).1, ∃ w ∈ l, v.start = w.start) ∧
      UntreatedOrdered (collectUntreated cs (cs + csz) l).1 ∧
      (∀ v ∈ (collectUntreated cs (cs + csz) l).2, 0 < v.size ∧ cs + csz ≤ v.start) ∧
      UntreatedOrdered (collectUntreated cs (cs + csz) l).2 := by
  intro l
  induction l with
  | nil =>
    intro _ _
    refine ⟨by simp [collectUntreated], by simp [collectUntreated], ?_, by simp [collectUntreated], ?_⟩
    · simp [collectUntreated, UntreatedOrdered]
    · simp [collectUntreated, UntreatedOrdered]
  | cons u rest ih =>
    intro hmem hord
    have hu := hmem u (by simp)
    have hrest : ∀ v ∈ rest, 0 < v.size ∧ cs ≤ v.start := fun v hv => hmem v (by simp [hv])
    have hordrest : UntreatedOrdered rest := (List.pairwise_cons.mp hord).2
    have hhead : ∀ v ∈ rest, u.start + u.size ≤ v.start := (List.pairwise_cons.mp hord).1
    by_cases hov : u.start < cs + csz ∧ cs < u.start + u.size
    · have hts : ¬ (u.start < cs) := by omega
      by_cases hend : u.start + u.size ≤ cs + csz
      · obtain ⟨ih1, ih2, ih3, ih4, ih5⟩ := ih hrest hordrest
        have heq : collectUntreated cs (cs + csz) (u :: rest) =
            (⟨u.start, u.size⟩ :: (collectUntreated cs (cs + csz) rest).1,
              (collectUntreated cs (cs + csz) rest).2) := by
          rw [collectUntreated]
          simp only [if_pos hov, if_neg hts, if_pos hend]
        rw [heq]
        refine ⟨?_, ?_, ?_, ih4, ih5⟩
        · intro v hv
          rcases List.mem_cons.mp hv with hv | hv
          · subst hv; exact ⟨hu.2, hend, hu.1⟩
          · exact ih1 v hv
        · intro v hv
          rcases List.mem_cons.mp hv with hv | hv
          · exact ⟨u, by simp, by subst hv; rfl⟩
          · obtain ⟨w, hw, he⟩ := ih2 v hv
            exact ⟨w, by simp [hw], he⟩
        · refine List.pairwise_cons.mpr ⟨?_, ih3⟩
          intro v hv
          obtain ⟨w, hw, he⟩ := ih2 v hv
          have := hhead w hw
          show u.start + u.size ≤ v.start
          omega
      · have hbey : ¬ (u.start + u.size ≤ cs + csz) := hend
        have heq : collectUntreated cs (cs + csz) (u :: rest) =
            ([⟨u.start, (cs + csz) - u.start⟩],
              ⟨cs + csz, (u.start + u.size) - (cs + csz)⟩ :: rest) := by
          rw [collectUntreated]
          simp only [if_pos hov, if_neg hts, if_neg hend]
        rw [heq]
        refine ⟨?_, ?_, ?_, ?_, ?_⟩
        · intro v hv
          rcases List.mem_singleton.mp hv with hv
          subst hv
          refine ⟨hu.2, ?_, ?_⟩
          · show u.start + ((cs + csz) - u.start) ≤ cs + csz
            omega
          · show 0 < (cs + csz) - u.start
            omega
        · intro v hv
          rcases List.mem_singleton.mp hv with hv
          exact ⟨u, by simp, by subst hv; rfl⟩
        · simp [UntreatedOrdered]
        · intro v hv
          rcases List.mem_cons.mp hv with hv | hv
          · subst hv
            refine ⟨?_, ?_⟩
            · show 0 < (u.start + u.size) - (cs + csz)
              omega
            · show cs + csz ≤ cs + csz
              omega
          · have h1 := hrest v hv
            have h2 := hhead v hv
            exact ⟨h1.1, by omega⟩
        · refine List.pairwise_cons.mpr ⟨?_, hordrest⟩
          intro v hv
          have := hhead v hv
          show (cs + csz) + ((u.start + u.size) - (cs + csz)) ≤ v.start
          omega
    · have hbeyond : cs + csz ≤ u.start := by omega
      have hbey1 : cs + csz - 1 < u.start := by omega
      have heq : collectUntreated cs (cs + csz) (u :: rest) = ([], u :: rest) := by
        rw [collectUntreated]
        simp only [if_neg hov, if_pos hbey1]
      rw [heq]
      refine ⟨by simp, by simp, by simp [UntreatedOrdered], ?_, hord⟩
      intro v hv
      rcases List.mem_cons.mp hv with hv | hv
      · subst hv; exact ⟨hu.1, hbeyond⟩
      · have h1 := hrest v hv
        have h2 := hhead v hv
        exact ⟨h1.1, by omega⟩

/-- Witness for `C7_WaitAllThreadsExit`: two workers, the first fails with
errno `5`, the second succeeds; the waiter joins and returns `5`. -/
theorem C7_witness :
    (waitRun (waitInit [5, 0])
        [.waiter, .worker, .waiter, .worker, .waiter]).phase = WaiterPhase.done 5 ∧
      (waitRun (waitInit [5, 0])
          [.waiter, .worker, .waiter, .worker, .waiter]).instruct_count = 0 ∧
      (5 : Int) = firstError [5, 0] :=
  ⟨by decide, C7_WaitAllThreadsExit [5, 0] [.waiter, .worker, .waiter, .worker, .waiter] 5
    (by decide)⟩

/-! ## Theorems: whole-file planner — scan and gap lemmas -/

/-- After the overlapping part, every remaining part lies beyond the slab, so
the continued scan breaks at once keeping the list intact. -/
lemma scanAfterOverlap_beyond (cs ce : Nat) (hce : 0 < ce) (l : List Filepart)
    (h : ∀ q ∈ l, ce ≤ q.startpos) : scanAfterOverlap cs ce l = some ([], l) := by
  cases l with
  | nil => rfl
  | cons q rest =>
    have hq := h q (by simp)
    have hov : ¬ (cs < q.startpos + q.size ∧ q.startpos < ce) := by omega
    have hbey : ce - 1 < q.startpos := by omega
    rw [scanAfterOverlap]
    simp only [if_neg hov, if_pos hbey]

lemma scanUploaded_cons_overlap (cs ce : Nat) (hce : 0 < ce) (p : Filepart)
    (rest : List Filepart) (hov : cs < p.startpos + p.size ∧ p.startpos < ce)
    (hrest : ∀ q ∈ rest, ce ≤ q.startpos) :
    scanUploaded cs ce (p :: rest) = some ([], some p, [], rest) := by
  rw [scanUploaded]
  simp only [if_pos hov, scanAfterOverlap_beyond cs ce hce rest hrest]

lemma scanUploaded_cons_beyond (cs ce : Nat) (hce : 0 < ce) (p : Filepart)
    (rest : List Filepart) (hbey : ce ≤ p.startpos) :
    scanUploaded cs ce (p :: rest) = some ([], none, [], p :: rest) := by
  have hov : ¬ (cs < p.startpos + p.size ∧ p.startpos < ce) := by omega
  have hbey1 : ce - 1 < p.startpos := by omega
  rw [scanUploaded]
  simp only [if_neg hov, if_pos hbey1]

/-- With `first_area` already false, the gap loop never touches the copy list
or the changed area; it only prepends download entries lying at or after the
running position. -/
lemma innerGaps_false_spec (uc : Bool) :
    ∀ (l : List UntreatedPart) (g : GapState),
      (∀ v ∈ l, g.tmp_cur_start ≤ v.start) →
      UntreatedOrdered l →
      (innerGaps uc l false g).changed_start = g.changed_start ∧
      (innerGaps uc l false g).changed_size = g.changed_size ∧
      (innerGaps uc l false g).to_copy = g.to_copy ∧
      ∃ add, (innerGaps uc l false g).to_download = add ++ g.to_download ∧
        ∀ e ∈ add, g.tmp_cur_start ≤ e.1 := by
  intro l
  induction l with
  | nil =>
    intro g _ _
    exact ⟨rfl, rfl, rfl, [], rfl, by simp⟩
  | cons u rest ih =>
    intro g hge hord
    have hgu : g.tmp_cur_start ≤ u.start := (hge u (by simp))
    have hgrest : ∀ v ∈ rest, u.start + u.size ≤ v.start := (List.pairwise_cons.mp hord).1
    have hordrest : UntreatedOrdered rest := (List.pairwise_cons.mp hord).2
    by_cases hgap : g.tmp_cur_start < u.start
    · have heq : innerGaps uc (u :: rest) false g =
          innerGaps uc rest false
            { g with
                to_download := (g.tmp_cur_start, u.start - g.tmp_cur_start) :: g.to_download,
                tmp_cur_size := (g.tmp_cur_start + g.tmp_cur_size) - (u.start + u.size),
                tmp_cur_start := u.start + u.size } := by
        rw [innerGaps]
        simp only [if_pos hgap, Bool.false_and, Bool.false_eq_true, if_neg]
        rfl
      rw [heq]
      obtain ⟨e1, e2, e3, add, e4, e5⟩ :=
        ih { g with
              to_download := (g.tmp_cur_start, u.start - g.tmp_cur_start) :: g.to_download,
              tmp_cur_size := (g.tmp_cur_start + g.tmp_cur_size) - (u.start + u.size),
              tmp_cur_start := u.start + u.size }
          (fun v hv => hgrest v hv) hordrest
      refine ⟨e1, e2, e3, add ++ [(g.tmp_cur_start, u.start - g.tmp_cur_start)], ?_, ?_⟩
      · rw [e4]; simp
      · intro e he
        rcases List.mem_append.mp he with he | he
        · have h2 : u.start + u.size ≤ e.1 := e5 e he
          omega
        · rcases List.mem_singleton.mp he with he
          subst he
          exact le_refl _
    · have heq : innerGaps uc (u :: rest) false g =
          innerGaps uc rest false
            { g with
                tmp_cur_size := (g.tmp_cur_start + g.tmp_cur_size) - (u.start + u.size),
                tmp_cur_start := u.start + u.size } := by
        rw [innerGaps]
        simp only [if_neg hgap]
      rw [heq]
      obtain ⟨e1, e2, e3, add, e4, e5⟩ :=
        ih { g with
              tmp_cur_size := (g.tmp_cur_start + g.tmp_cur_size) - (u.start + u.size),
              tmp_cur_start := u.start + u.size }
          (fun v hv => hgrest v hv) hordrest
      refine ⟨e1, e2, e3, add, e4, ?_⟩
      intro e he
      have h2 : u.start + u.size ≤ e.1 := e5 e he
      omega

/-- The gap loop either leaves the changed area and the copy list untouched,
or (exactly when the absorption conditions of the code hold at the first
untreated area) extends the most recent copy entry by the first gap and
shifts the changed area accordingly. -/
lemma innerGaps_outcome (uc : Bool) (u : UntreatedPart) (urest : List UntreatedPart)
    (g : GapState) (hord : UntreatedOrdered (u :: urest)) :
    ((innerGaps uc (u :: urest) true g).changed_start = g.changed_start ∧
      (innerGaps uc (u :: urest) true g).changed_size = g.changed_size ∧
      (innerGaps uc (u :: urest) true g).to_copy = g.to_copy) ∨
    (∃ c ctail, g.to_copy = c :: ctail ∧ uc = true ∧
      c.start + c.size = g.tmp_cur_start ∧ g.tmp_cur_start < u.start ∧
      c.size + (u.start - g.tmp_cur_start) ≤ FIVE_GB ∧
      MIN_MULTIPART_SIZE ≤ (g.tmp_cur_start + g.tmp_cur_size) - u.start ∧
      (innerGaps uc (u :: urest) true g).changed_start = u.start ∧
      (innerGaps uc (u :: urest) true g).changed_size =
        g.changed_size - (u.start - g.changed_start) ∧
      (innerGaps uc (u :: urest) true g).to_copy =
        { c with size := c.size + (u.start - g.tmp_cur_start) } :: ctail) := by
  have hgrest : ∀ v ∈ urest, u.start + u.size ≤ v.start := (List.pairwise_cons.mp hord).1
  have hordrest : UntreatedOrdered urest := (List.pairwise_cons.mp hord).2
  by_cases hgap : g.tmp_cur_start < u.start
  · by_cases huc : uc = true
    · match hcopy : g.to_copy with
      | [] =>
        have heq : innerGaps uc (u :: urest) true g =
            innerGaps uc urest false
              ⟨u.start + u.size,
                (g.tmp_cur_start + g.tmp_cur_size) - (u.start + u.size),
                g.changed_start, g.changed_size, g.to_copy,
                (g.tmp_cur_start, u.start - g.tmp_cur_start) :: g.to_download⟩ := by
          rw [innerGaps]
          simp only [if_pos hgap, huc, Bool.true_and, hcopy]
          try rfl
        rw [heq]
        obtain ⟨e1, e2, e3, -⟩ :=
          innerGaps_false_spec uc urest
            ⟨u.start + u.size,
              (g.tmp_cur_start + g.tmp_cur_size) - (u.start + u.size),
              g.changed_start, g.changed_size, g.to_copy,
              (g.tmp_cur_start, u.start - g.tmp_cur_start) :: g.to_download⟩
            (fun v hv => hgrest v hv) hordrest
        exact Or.inl ⟨e1, e2, e3.trans hcopy⟩
      | c :: ctail =>
        by_cases hcond : c.start + c.size = g.tmp_cur_start ∧
            c.size + (u.start - g.tmp_cur_start) ≤ FIVE_GB ∧
            MIN_MULTIPART_SIZE ≤ (g.tmp_cur_start + g.tmp_cur_size) - u.start
        · have heq : innerGaps uc (u :: urest) true g =
              innerGaps uc urest false
                ⟨u.start + u.size,
                  (g.tmp_cur_start + g.tmp_cur_size) - (u.start + u.size),
                  u.start, g.changed_size - (u.start - g.changed_start),
                  { c with size := c.size + (u.start - g.tmp_cur_start) } :: ctail,
                  g.to_download⟩ := by
            rw [innerGaps]
            simp only [if_pos hgap, huc, Bool.true_and, hcopy, if_pos hcond]
            try rfl
          rw [heq]
          obtain ⟨e1, e2, e3, -⟩ :=
            innerGaps_false_spec uc urest
              ⟨u.start + u.size,
                (g.tmp_cur_start + g.tmp_cur_size) - (u.start + u.size),
                u.start, g.changed_size - (u.start - g.changed_start),
                { c with size := c.size + (u.start - g.tmp_cur_start) } :: ctail,
                g.to_download⟩
              (fun v hv => hgrest v hv) hordrest
          exact Or.inr ⟨c, ctail, rfl, huc, hcond.1, hgap, hcond.2.1, hcond.2.2,
            e1, e2, e3⟩
        · have heq : innerGaps uc (u :: urest) true g =
              innerGaps uc urest false
                ⟨u.start + u.size,
                  (g.tmp_cur_start + g.tmp_cur_size) - (u.start + u.size),
                  g.changed_start, g.changed_size, g.to_copy,
                  (g.tmp_cur_start, u.start - g.tmp_cur_start) :: g.to_download⟩ := by
            rw [innerGaps]
            simp only [if_pos hgap, huc, Bool.true_and, hcopy, if_neg hcond]
            try rfl
          rw [heq]
          obtain ⟨e1, e2, e3, -⟩ :=
            innerGaps_false_spec uc urest
              ⟨u.start + u.size,
                (g.tmp_cur_start + g.tmp_cur_size) - (u.start + u.size),
                g.changed_start, g.changed_size, g.to_copy,
                (g.tmp_cur_start, u.start - g.tmp_cur_start) :: g.to_download⟩
              (fun v hv => hgrest v hv) hordrest
          exact Or.inl ⟨e1, e2, e3.trans hcopy⟩
    · have huc' : uc = false := by
        cases uc
        · rfl
        · exact absurd rfl huc
      have heq : innerGaps uc (u :: urest) true g =
          innerGaps uc urest false
            ⟨u.start + u.size,
              (g.tmp_cur_start + g.tmp_cur_size) - (u.start + u.size),
              g.changed_start, g.changed_size, g.to_copy,
              (g.tmp_cur_start, u.start - g.tmp_cur_start) :: g.to_download⟩ := by
        rw [innerGaps]
        simp only [if_pos hgap, huc', Bool.and_false, Bool.false_eq_true, if_neg]
        try rfl
      rw [heq]
      obtain ⟨e1, e2, e3, -⟩ :=
        innerGaps_false_spec uc urest
          ⟨u.start + u.size,
            (g.tmp_cur_start + g.tmp_cur_size) - (u.start + u.size),
            g.changed_start, g.changed_size, g.to_copy,
            (g.tmp_cur_start, u.start - g.tmp_cur_start) :: g.to_download⟩
          (fun v hv => hgrest v hv) hordrest
      exact Or.inl ⟨e1, e2, e3⟩
  · have heq : innerGaps uc (u :: urest) true g =
        innerGaps uc urest false
          ⟨u.start + u.size,
            (g.tmp_cur_start + g.tmp_cur_size) - (u.start + u.size),
            g.changed_start, g.changed_size, g.to_copy, g.to_download⟩ := by
      rw [innerGaps]
      simp only [if_neg hgap]
    rw [heq]
    obtain ⟨e1, e2, e3, -⟩ :=
      innerGaps_false_spec uc urest
        ⟨u.start + u.size,
          (g.tmp_cur_start + g.tmp_cur_size) - (u.start + u.size),
          g.changed_start, g.changed_size, g.to_copy, g.to_download⟩
        (fun v hv => hgrest v hv) hordrest
    exact Or.inl ⟨e1, e2, e3⟩

lemma any_reverse_eq {α : Type} (l : List α) (p : α → Bool) :
    l.reverse.any p = l.any p := by
  induction l with
  | nil => rfl
  | cons a rest ih => simp [List.any_append, ih, Bool.or_comm]

/-- One slab step preserves the wait-flag/cancel-list relationship. -/
lemma processSlab_wait (uc : Bool) (mv fs cs : Nat) (acc : PlanAccum)
    (remU : List UntreatedPart) (remP : List Filepart)
    (acc2 : PlanAccum) (remU2 : List UntreatedPart) (remP2 : List Filepart)
    (h : processSlab uc mv fs cs acc remU remP = some (acc2, remU2, remP2))
    (hw : acc.wait_upload_complete = acc.cancel_upload.any fun q => !q.uploaded) :
    acc2.wait_upload_complete = acc2.cancel_upload.any fun q => !q.uploaded := by
  cases hscan : scanUploaded cs (cs + slabSize mv fs cs) remP with
  | none =>
    simp only [processSlab, hscan] at h
    exact Option.noConfusion h
  | some q =>
    obtain ⟨before, ovl, after, rest⟩ := q
    cases hcol : (collectUntreated cs (cs + slabSize mv fs cs) remU).1 with
    | nil =>
      cases ovl with
      | some p =>
        simp only [processSlab, hscan, hcol, Option.some.injEq, Prod.mk.injEq] at h
        obtain ⟨h1, -, -⟩ := h
        subst h1
        simpa using hw
      | none =>
        by_cases huc : uc = true
        · simp only [processSlab, hscan, hcol, huc, eq_self_iff_true, if_true,
            Option.some.injEq, Prod.mk.injEq] at h
          obtain ⟨h1, -, -⟩ := h
          subst h1
          simpa using hw
        · have huc' : uc = false := by
            cases uc
            · rfl
            · exact absurd rfl huc
          simp only [processSlab, hscan, hcol, huc', Bool.false_eq_true, if_false,
            Option.some.injEq, Prod.mk.injEq] at h
          obtain ⟨h1, -, -⟩ := h
          subst h1
          simpa using hw
    | cons u urest =>
      cases ovl with
      | some p =>
        simp only [processSlab, hscan, hcol, Option.some.injEq, Prod.mk.injEq] at h
        obtain ⟨h1, -, -⟩ := h
        subst h1
        simp only [List.any_cons]
        rw [hw]
        exact Bool.or_comm _ _
      | none =>
        simp only [processSlab, hscan, hcol, Option.some.injEq, Prod.mk.injEq] at h
        obtain ⟨h1, -, -⟩ := h
        subst h1
        simpa using hw

/-- The slab walk preserves the wait-flag/cancel-list relationship. -/
lemma planLoop_wait (uc : Bool) (mv fs : Nat) :
    ∀ (fuel cs : Nat) (acc : PlanAccum) (remU : List UntreatedPart)
      (remP : List Filepart) (out : PlanAccum × List Filepart),
      planLoop uc mv fs fuel cs acc remU remP = some out →
      acc.wait_upload_complete = (acc.cancel_upload.any fun q => !q.uploaded) →
      out.1.wait_upload_complete = out.1.cancel_upload.any fun q => !q.uploaded := by
  intro fuel
  induction fuel with
  | zero =>
    intro cs acc remU remP out h hw
    simp only [planLoop] at h
    split at h
    · exact absurd h (by simp)
    · simp only [Option.some.injEq] at h
      subst h
      simpa using hw
  | succ n ih =>
    intro cs acc remU remP out h hw
    simp only [planLoop] at h
    split at h
    · split at h
      · exact absurd h (by simp)
      · rename_i acc2 remU2 remP2 heq2?
        exact ih _ _ _ _ _ h (processSlab_wait uc mv fs cs acc remU remP _ _ _ (by assumption) hw)
    · simp only [Option.some.injEq] at h
      subst h
      simpa using hw

/-- For any successful planner run, the wait flag is set exactly when some
cancelled part had not yet finished uploading. -/
lemma extract_wait_characterization (ul : List UntreatedPart) (pl : List Filepart)
    (mv fs : Nat) (uc : Bool) (res : PlanResult)
    (h : ExtractUploadPartsFromAllArea ul pl mv fs uc = some res) :
    res.wait_upload_complete = res.cancel_upload.any fun q => !q.uploaded := by
  unfold ExtractUploadPartsFromAllArea at h
  split at h
  · exact absurd h (by simp)
  · rename_i acc remP heq
    simp only [Option.some.injEq] at h
    subst h
    have hmain := planLoop_wait uc mv fs (fs / mv + 1) 0 ⟨[], [], [], [], false, []⟩
      ul pl (acc, remP) heq (by simp)
    simpa [any_reverse_eq] using hmain

/-- C3: when the current slab overlaps an untreated area and an uploaded part
covers it, the planner removes that part from the upload list, appends it to
the cancel list, ors `!uploaded` into `wait_upload_complete`, and emits an
upload instruction for the whole slab with the slab's part number; globally,
the returned wait flag is true exactly when some cancelled part has not
finished uploading. -/
theorem C3_cancel_superseded (uc : Bool) (mv fs cs : Nat) (acc : PlanAccum)
    (remU : List UntreatedPart) (remP : List Filepart)
    (u : UntreatedPart) (curRest : List UntreatedPart) (p : Filepart)
    (before after rest : List Filepart)
    (hcol : (collectUntreated cs (cs + slabSize mv fs cs) remU).1 = u :: curRest)
    (hscan : scanUploaded cs (cs + slabSize mv fs cs) remP =
        some (before, some p, after, rest)) :
    processSlab uc mv fs cs acc remU remP =
      some ({ acc with
                wait_upload_complete := acc.wait_upload_complete || !p.uploaded,
                cancel_upload := p :: acc.cancel_upload,
                to_upload := ⟨cs, slabSize mv fs cs, cs / mv + 1⟩ :: acc.to_upload,
                kept := before.reverse ++ acc.kept },
            (collectUntreated cs (cs + slabSize mv fs cs) remU).2, after ++ rest) ∧
    ∀ (ul : List UntreatedPart) (pl : List Filepart) (mv2 fs2 : Nat) (uc2 : Bool)
        (res : PlanResult),
      ExtractUploadPartsFromAllArea ul pl mv2 fs2 uc2 = some res →
      res.wait_upload_complete = (res.cancel_upload.any fun q => !q.uploaded) := by
  refine ⟨?_, fun ul pl mv2 fs2 uc2 res h =>
    extract_wait_characterization ul pl mv2 fs2 uc2 res h⟩
  simp only [processSlab, hscan, hcol]

/-- Witness for `C3_cancel_superseded`: slab `[0,10)` of a 10-byte file,
untreated `[5,8)`, covered by a still-uploading part. -/
theorem C3_witness :
    ((collectUntreated 0 (0 + slabSize 10 10 0) [⟨5, 3⟩]).1 =
        [(⟨5, 3⟩ : UntreatedPart)]) ∧
    (scanUploaded 0 (0 + slabSize 10 10 0) [⟨false, 0, 10, false, 1⟩] =
        some ([], some ⟨false, 0, 10, false, 1⟩, [], [])) ∧
    (processSlab false 10 10 0 ⟨[], [], [], [], false, []⟩ [⟨5, 3⟩]
          [⟨false, 0, 10, false, 1⟩] =
        some ({ to_upload := [⟨0, slabSize 10 10 0, 0 / 10 + 1⟩], to_copy := [],
                to_download := [], cancel_upload := [⟨false, 0, 10, false, 1⟩],
                wait_upload_complete := false || !false,
                kept := List.reverse [] ++ [] },
          (collectUntreated 0 (0 + slabSize 10 10 0) [⟨5, 3⟩]).2, [] ++ []) ∧
      ∀ (ul : List UntreatedPart) (pl : List Filepart) (mv2 fs2 : Nat) (uc2 : Bool)
          (res : PlanResult),
        ExtractUploadPartsFromAllArea ul pl mv2 fs2 uc2 = some res →
        res.wait_upload_complete = (res.cancel_upload.any fun q => !q.uploaded)) :=
  ⟨by decide, by decide,
    C3_cancel_superseded false 10 10 0 ⟨[], [], [], [], false, []⟩ [⟨5, 3⟩]
      [⟨false, 0, 10, false, 1⟩] ⟨5, 3⟩ [] ⟨false, 0, 10, false, 1⟩ [] [] []
      (by decide) (by decide)⟩

/-- C4: in a slab with untreated overlap and no covering upload part, the gap
between the slab start and the first untreated area is absorbed into the
immediately preceding copy instruction exactly when the code's conditions
hold (copy upload in use, contiguity, the united copy within 5 GiB, at least
the minimum part size left to upload); otherwise the gap is emitted as a
download instruction.  Later gap-loop downloads all start at or after the
first untreated area's end, so the leading gap itself is never downloaded
when absorbed. -/
theorem C4_gap_download_or_absorb (uc : Bool) (u : UntreatedPart)
    (urest : List UntreatedPart) (g : GapState)
    (hord : UntreatedOrdered (u :: urest)) (hgap : g.tmp_cur_start < u.start) :
    (gapAbsorbCond uc g.to_copy g.tmp_cur_start g.tmp_cur_size u.start = true →
      (innerGaps uc (u :: urest) true g).to_copy =
          gapAbsorbedCopy g.to_copy (u.start - g.tmp_cur_start) ∧
        (innerGaps uc (u :: urest) true g).changed_start = u.start ∧
        (innerGaps uc (u :: urest) true g).changed_size =
          g.changed_size - (u.start - g.changed_start) ∧
        ∃ add, (innerGaps uc (u :: urest) true g).to_download = add ++ g.to_download ∧
          ∀ e ∈ add, u.start + u.size ≤ e.1) ∧
    (gapAbsorbCond uc g.to_copy g.tmp_cur_start g.tmp_cur_size u.start = false →
      (innerGaps uc (u :: urest) true g).to_copy = g.to_copy ∧
        (innerGaps uc (u :: urest) true g).changed_start = g.changed_start ∧
        (innerGaps uc (u :: urest) true g).changed_size = g.changed_size ∧
        ∃ add, (innerGaps uc (u :: urest) true g).to_download =
            add ++ ((g.tmp_cur_start, u.start - g.tmp_cur_start) :: g.to_download) ∧
          ∀ e ∈ add, u.start + u.size ≤ e.1) := by
  have hgrest : ∀ v ∈ urest, u.start + u.size ≤ v.start := (List.pairwise_cons.mp hord).1
  have hordrest : UntreatedOrdered urest := (List.pairwise_cons.mp hord).2
  by_cases huc : uc = true
  · cases hcopy : g.to_copy with
    | nil =>
      have heq : innerGaps uc (u :: urest) true g =
          innerGaps uc urest false
            ⟨u.start + u.size,
              (g.tmp_cur_start + g.tmp_cur_size) - (u.start + u.size),
              g.changed_start, g.changed_size, g.to_copy,
              (g.tmp_cur_start, u.start - g.tmp_cur_start) :: g.to_download⟩ := by
        rw [innerGaps]
        simp only [if_pos hgap, huc, Bool.true_and, hcopy]
        try rfl
      obtain ⟨e1, e2, e3, add, e4, e5⟩ :=
        innerGaps_false_spec uc urest
          ⟨u.start + u.size,
            (g.tmp_cur_start + g.tmp_cur_size) - (u.start + u.size),
            g.changed_start, g.changed_size, g.to_copy,
            (g.tmp_cur_start, u.start - g.tmp_cur_start) :: g.to_download⟩
          (fun v hv => hgrest v hv) hordrest
      constructor
      · intro hh
        rw [huc] at hh
        simp [gapAbsorbCond] at hh
      · intro _
        rw [heq]
        refine ⟨e3.trans hcopy, e1, e2, add, e4, ?_⟩
        intro e he
        have h2 : u.start + u.size ≤ e.1 := e5 e he
        omega
    | cons c ctail =>
      by_cases hcond : c.start + c.size = g.tmp_cur_start ∧
          c.size + (u.start - g.tmp_cur_start) ≤ FIVE_GB ∧
          MIN_MULTIPART_SIZE ≤ (g.tmp_cur_start + g.tmp_cur_size) - u.start
      · have hcv : gapAbsorbCond uc (c :: ctail) g.tmp_cur_start g.tmp_cur_size
            u.start = true := by
          rw [huc]
          simp [gapAbsorbCond, hcond.1, hcond.2.1, hcond.2.2]
        have heq : innerGaps uc (u :: urest) true g =
            innerGaps uc urest false
              ⟨u.start + u.size,
                (g.tmp_cur_start + g.tmp_cur_size) - (u.start + u.size),
                u.start, g.changed_size - (u.start - g.changed_start),
                { c with size := c.size + (u.start - g.tmp_cur_start) } :: ctail,
                g.to_download⟩ := by
          rw [innerGaps]
          simp only [if_pos hgap, huc, Bool.true_and, hcopy, if_pos hcond]
          try rfl
        obtain ⟨e1, e2, e3, add, e4, e5⟩ :=
          innerGaps_false_spec uc urest
            ⟨u.start + u.size,
              (g.tmp_cur_start + g.tmp_cur_size) - (u.start + u.size),
              u.start, g.changed_size - (u.start - g.changed_start),
              { c with size := c.size + (u.start - g.tmp_cur_start) } :: ctail,
              g.to_download⟩
            (fun v hv => hgrest v hv) hordrest
        constructor
        · intro _
          rw [heq]
          refine ⟨e3, e1, e2, add, e4, ?_⟩
          intro e he
          have h2 : u.start + u.size ≤ e.1 := e5 e he
          omega
        · intro hh
          rw [hcv] at hh
          exact Bool.noConfusion hh
      · have hcv : gapAbsorbCond uc (c :: ctail) g.tmp_cur_start g.tmp_cur_size
            u.start = false := by
          rw [huc]
          simp only [gapAbsorbCond]
          rcases Decidable.not_and_iff_or_not.mp hcond with hx | hx
          · simp [hx]
          · rcases Decidable.not_and_iff_or_not.mp hx with hy | hy
            · simp [hy]
            · simp [hy]
        have heq : innerGaps uc (u :: urest) true g =
            innerGaps uc urest false
              ⟨u.start + u.size,
                (g.tmp_cur_start + g.tmp_cur_size) - (u.start + u.size),
                g.changed_start, g.changed_size, c :: ctail,
                (g.tmp_cur_start, u.start - g.tmp_cur_start) :: g.to_download⟩ := by
          rw [innerGaps]
          simp only [if_pos hgap, huc, Bool.true_and, hcopy, if_neg hcond]
          try rfl
        obtain ⟨e1, e2, e3, add, e4, e5⟩ :=
          innerGaps_false_spec uc urest
            ⟨u.start + u.size,
              (g.tmp_cur_start + g.tmp_cur_size) - (u.start + u.size),
              g.changed_start, g.changed_size, c :: ctail,
              (g.tmp_cur_start, u.start - g.tmp_cur_start) :: g.to_download⟩
            (fun v hv => hgrest v hv) hordrest
        constructor
        · intro hh
          rw [hcv] at hh
          exact Bool.noConfusion hh
        · intro _
          rw [heq]
          refine ⟨e3, e1, e2, add, e4, ?_⟩
          intro e he
          have h2 : u.start + u.size ≤ e.1 := e5 e he
          omega
  · have huc' : uc = false := by
      cases uc
      · rfl
      · exact absurd rfl huc
    have heq : innerGaps uc (u :: urest) true g =
        innerGaps uc urest false
          ⟨u.start + u.size,
            (g.tmp_cur_start + g.tmp_cur_size) - (u.start + u.size),
            g.changed_start, g.changed_size, g.to_copy,
            (g.tmp_cur_start, u.start - g.tmp_cur_start) :: g.to_download⟩ := by
      rw [innerGaps]
      simp only [if_pos hgap, huc', Bool.and_false, Bool.false_eq_true, if_neg]
      try rfl
    obtain ⟨e1, e2, e3, add, e4, e5⟩ :=
      innerGaps_false_spec uc urest
        ⟨u.start + u.size,
          (g.tmp_cur_start + g.tmp_cur_size) - (u.start + u.size),
          g.changed_start, g.changed_size, g.to_copy,
          (g.tmp_cur_start, u.start - g.tmp_cur_start) :: g.to_download⟩
        (fun v hv => hgrest v hv) hordrest
    constructor
    · intro hh
      rw [huc'] at hh
      simp [gapAbsorbCond] at hh
    · intro _
      rw [heq]
      refine ⟨e3, e1, e2, add, e4, ?_⟩
      intro e he
      have h2 : u.start + u.size ≤ e.1 := e5 e he
      omega

/-- Witness for `C4_gap_download_or_absorb`: slab `[10 MiB, 20 MiB)` with the
untreated area starting at 11 MiB and a contiguous preceding copy entry; the
absorption conditions hold. -/
theorem C4_witness :
    UntreatedOrdered [(⟨11534336, 9437184⟩ : UntreatedPart)] ∧
      (10485760 : Nat) < 11534336 ∧
      gapAbsorbCond true [⟨0, 10485760, 1⟩] 10485760 10485760 11534336 = true ∧
      (innerGaps true [⟨11534336, 9437184⟩] true
          ⟨10485760, 10485760, 10485760, 10485760, [⟨0, 10485760, 1⟩], []⟩).to_copy =
        gapAbsorbedCopy [⟨0, 10485760, 1⟩] (11534336 - 10485760) :=
  ⟨by simp [UntreatedOrdered], by decide, by decide,
    ((C4_gap_download_or_absorb true ⟨11534336, 9437184⟩ []
        ⟨10485760, 10485760, 10485760, 10485760, [⟨0, 10485760, 1⟩], []⟩
        (by simp [UntreatedOrdered]) (by decide)).1 (by decide)).1⟩

/-- C2 counterexample: with `max_part_size` 10 MiB, a 20 MiB file, copy
upload in use and the untreated area `[11 MiB, 20 MiB)`, the planner absorbs
the gap `[10 MiB, 11 MiB)` into the preceding copy instruction, whose size
(11 MiB) then exceeds `max_part_size` — refuting that every `to_copy` entry
has size at most `max_part_size`. -/
theorem C2_counterexample :
    0 < (10485760 : Nat) ∧ 0 < (20971520 : Nat) ∧
      ∃ res, ExtractUploadPartsFromAllArea [⟨11534336, 9437184⟩] [] 10485760 20971520 true
          = some res ∧ ¬ (∀ c ∈ res.to_copy, c.size ≤ 10485760) := by
  refine ⟨by decide, by decide,
    ⟨⟨[⟨11534336, 9437184, 2⟩], [⟨0, 11534336, 1⟩], [], [], false, []⟩, by decide, ?_⟩⟩
  intro hall
  have := hall ⟨0, 11534336, 1⟩ (by decide)
  simp at this

/-! ## Theorems: whole-file planner — coverage and size invariants -/

lemma countCover_acc (acc : PlanAccum) (x : Nat) :
    countCover (accRanges acc) x =
      countCover (mpRanges acc.to_upload) x + countCover (mpRanges acc.to_copy) x +
        countCover (fpRanges acc.kept) x := by
  simp [accRanges, countCover_append]
  omega

lemma countCover_fp_cons (p : Filepart) (l : List Filepart) (x : Nat) :
    countCover (fpRanges (p :: l)) x =
      countCover (fpRanges l) x +
        (if p.startpos ≤ x ∧ x < p.startpos + p.size then 1 else 0) := by
  simp only [fpRanges, List.map_cons]
  exact countCover_cons _ _ _ _

lemma countCover_mp_cons (e : MpPart) (l : List MpPart) (x : Nat) :
    countCover (mpRanges (e :: l)) x =
      countCover (mpRanges l) x +
        (if e.start ≤ x ∧ x < e.start + e.size then 1 else 0) := by
  simp only [mpRanges, List.map_cons]
  exact countCover_cons _ _ _ _

lemma countCover_mp_cons3 (s z pn : Nat) (l : List MpPart) (x : Nat) :
    countCover (mpRanges (⟨s, z, pn⟩ :: l)) x =
      countCover (mpRanges l) x + (if s ≤ x ∧ x < s + z then 1 else 0) :=
  countCover_mp_cons ⟨s, z, pn⟩ l x

/-- One slab step under the planner's invariant: the step succeeds, the
remainders satisfy the invariant at the slab end, the accumulated ranges tile
exactly one more slab, and the size discipline is preserved. -/
lemma processSlab_spec (uc : Bool) (mv fs cs : Nat) (acc : PlanAccum)
    (remU : List UntreatedPart) (remP : List Filepart)
    (hmax : 0 < mv) (hdvd : mv ∣ cs) (hlt : cs < fs)
    (hU1 : ∀ u ∈ remU, 0 < u.size ∧ cs ≤ u.start) (hU2 : UntreatedOrdered remU)
    (hP1 : PartsAligned mv fs remP) (hP2 : PartsOrdered remP)
    (hP3 : ∀ p ∈ remP, cs ≤ p.startpos) :
    ∃ acc2 remU2 remP2,
      processSlab uc mv fs cs acc remU remP = some (acc2, remU2, remP2) ∧
      (∀ u ∈ remU2, 0 < u.size ∧ cs + slabSize mv fs cs ≤ u.start) ∧
      UntreatedOrdered remU2 ∧
      PartsAligned mv fs remP2 ∧ PartsOrdered remP2 ∧
      (∀ p ∈ remP2, cs + slabSize mv fs cs ≤ p.startpos) ∧
      ((∀ x, countCover (accRanges acc) x = if x < cs then 1 else 0) →
        ∀ x, countCover (accRanges acc2) x =
          if x < cs + slabSize mv fs cs then 1 else 0) ∧
      (SizeInv mv fs acc.to_upload acc.to_copy →
        SizeInv mv fs acc2.to_upload acc2.to_copy) := by
  obtain ⟨hcsz, hce, hfull, hcm⟩ := slabSize_spec mv fs cs hmax hlt
  obtain ⟨hc1, hc2, hc3, hc4, hc5⟩ :=
    collectUntreated_spec cs (slabSize mv fs cs) hcsz remU hU1 hU2
  have hscanS : (∃ p rest, remP = p :: rest ∧
        scanUploaded cs (cs + slabSize mv fs cs) remP = some ([], some p, [], rest) ∧
        p.startpos = cs ∧ p.size = mv ∧ slabSize mv fs cs = mv ∧
        (∀ q ∈ rest, cs + slabSize mv fs cs ≤ q.startpos)) ∨
      (scanUploaded cs (cs + slabSize mv fs cs) remP = some ([], none, [], remP) ∧
        ∀ q ∈ remP, cs + slabSize mv fs cs ≤ q.startpos) := by
    cases remP with
    | nil => exact Or.inr ⟨rfl, by simp⟩
    | cons p rest =>
      obtain ⟨hpal, hpsz, hpend⟩ := hP1 p (by simp)
      have hpge : cs ≤ p.startpos := hP3 p (by simp)
      have hhead : ∀ q ∈ rest, p.startpos + p.size ≤ q.startpos :=
        (List.pairwise_cons.mp hP2).1
      by_cases hover : p.startpos < cs + slabSize mv fs cs
      · have hps : p.startpos = cs :=
          multiple_eq_of_lt_add mv cs p.startpos hmax hdvd
            (Nat.dvd_of_mod_eq_zero hpal) hpge (by omega)
        have hcm2 : cs + mv ≤ fs := by omega
        have hslab : slabSize mv fs cs = mv := by
          unfold slabSize
          rw [if_pos hcm2]
        have hrge : ∀ q ∈ rest, cs + slabSize mv fs cs ≤ q.startpos := by
          intro q hq
          have := hhead q hq
          omega
        refine Or.inl ⟨p, rest, rfl, ?_, hps, hpsz, hslab, hrge⟩
        exact scanUploaded_cons_overlap cs _ (by omega) p rest ⟨by omega, hover⟩ hrge
      · have hbey : cs + slabSize mv fs cs ≤ p.startpos := by omega
        refine Or.inr ⟨scanUploaded_cons_beyond cs _ (by omega) p rest hbey, ?_⟩
        intro q hq
        rcases List.mem_cons.mp hq with hq | hq
        · subst hq; exact hbey
        · have := hhead q hq
          omega
  cases hcol : (collectUntreated cs (cs + slabSize mv fs cs) remU).1 with
  | nil =>
    rcases hscanS with ⟨p, rest, hrem, hscan, hps, hpsz, hslab, hrge⟩ | ⟨hscan, hbge⟩
    · -- Case A: slab fully uploaded already — the part stays in the list.
      refine ⟨{acc with kept := p :: acc.kept},
        (collectUntreated cs (cs + slabSize mv fs cs) remU).2, rest, ?_, hc4, hc5,
        ?_, ?_, hrge, ?_, ?_⟩
      · simp only [processSlab, hscan, hcol]
        rfl
      · intro q hq
        refine hP1 q ?_
        rw [hrem]
        simp [hq]
      · rw [hrem] at hP2
        exact (List.pairwise_cons.mp hP2).2
      · intro hcnt x
        have hx := hcnt x
        rw [countCover_acc] at hx
        rw [countCover_acc]
        show countCover (mpRanges acc.to_upload) x + countCover (mpRanges acc.to_copy) x +
          countCover (fpRanges (p :: acc.kept)) x = _
        rw [countCover_fp_cons]
        rw [hps, hpsz] at *
        split_ifs at hx ⊢ <;> omega
      · intro hs
        exact hs
    · -- Case A′: nothing untreated, nothing uploaded — copy or download+upload.
      by_cases huc : uc = true
      · refine ⟨{acc with
            to_copy := ⟨cs, slabSize mv fs cs, cs / mv + 1⟩ :: acc.to_copy,
            kept := acc.kept},
          (collectUntreated cs (cs + slabSize mv fs cs) remU).2, remP, ?_, hc4, hc5,
          hP1, hP2, hbge, ?_, ?_⟩
        · simp only [processSlab, hscan, hcol, huc, eq_self_iff_true, if_true]
          rfl
        · intro hcnt x
          have hx := hcnt x
          rw [countCover_acc] at hx
          rw [countCover_acc]
          show countCover (mpRanges acc.to_upload) x +
            countCover (mpRanges (⟨cs, slabSize mv fs cs, cs / mv + 1⟩ :: acc.to_copy)) x +
            countCover (fpRanges acc.kept) x = _
          rw [countCover_mp_cons3]
          split_ifs at hx ⊢ <;> omega
        · rintro ⟨s1, s2⟩
          refine ⟨s1, ?_⟩
          intro d hd
          rcases List.mem_cons.mp hd with hd | hd
          · subst hd
            exact le_trans hcm (le_max_left _ _)
          · exact s2 d hd
      · have huc' : uc = false := by
          cases uc
          · rfl
          · exact absurd rfl huc
        refine ⟨{acc with
            to_download := (cs, slabSize mv fs cs) :: acc.to_download,
            to_upload := ⟨cs, slabSize mv fs cs, cs / mv + 1⟩ :: acc.to_upload,
            kept := acc.kept},
          (collectUntreated cs (cs + slabSize mv fs cs) remU).2, remP, ?_, hc4, hc5,
          hP1, hP2, hbge, ?_, ?_⟩
        · simp only [processSlab, hscan, hcol, huc', Bool.false_eq_true, if_false]
          rfl
        · intro hcnt x
          have hx := hcnt x
          rw [countCover_acc] at hx
          rw [countCover_acc]
          show countCover (mpRanges (⟨cs, slabSize mv fs cs, cs / mv + 1⟩ :: acc.to_upload)) x +
            countCover (mpRanges acc.to_copy) x + countCover (fpRanges acc.kept) x = _
          rw [countCover_mp_cons3]
          split_ifs at hx ⊢ <;> omega
        · rintro ⟨s1, s2⟩
          refine ⟨?_, s2⟩
          intro e he
          rcases List.mem_cons.mp he with he | he
          · subst he
            exact ⟨hcm, hfull.imp id Or.inl⟩
          · exact s1 e he
  | cons u urest =>
    have hordcol : UntreatedOrdered (u :: urest) := by
      rw [← hcol]
      exact hc3
    have humem : u ∈ (collectUntreated cs (cs + slabSize mv fs cs) remU).1 := by
      rw [hcol]
      exact List.mem_cons_self _ _
    obtain ⟨hu1, hu2, hu3⟩ := hc1 u humem
    rcases hscanS with ⟨p, rest, hrem, hscan, hps, hpsz, hslab, hrge⟩ | ⟨hscan, hbge⟩
    · -- Case B: untreated overlap and a covering uploaded part — cancel it.
      refine ⟨{acc with
          wait_upload_complete := acc.wait_upload_complete || !p.uploaded,
          cancel_upload := p :: acc.cancel_upload,
          to_upload := ⟨cs, slabSize mv fs cs, cs / mv + 1⟩ :: acc.to_upload,
          kept := acc.kept},
        (collectUntreated cs (cs + slabSize mv fs cs) remU).2, rest, ?_, hc4, hc5,
        ?_, ?_, hrge, ?_, ?_⟩
      · simp only [processSlab, hscan, hcol]
        rfl
      · intro q hq
        refine hP1 q ?_
        rw [hrem]
        simp [hq]
      · rw [hrem] at hP2
        exact (List.pairwise_cons.mp hP2).2
      · intro hcnt x
        have hx := hcnt x
        rw [countCover_acc] at hx
        rw [countCover_acc]
        show countCover (mpRanges (⟨cs, slabSize mv fs cs, cs / mv + 1⟩ :: acc.to_upload)) x +
          countCover (mpRanges acc.to_copy) x + countCover (fpRanges acc.kept) x = _
        rw [countCover_mp_cons3]
        split_ifs at hx ⊢ <;> omega
      · rintro ⟨s1, s2⟩
        refine ⟨?_, s2⟩
        intro e he
        rcases List.mem_cons.mp he with he | he
        · subst he
          exact ⟨hcm, hfull.imp id Or.inl⟩
        · exact s1 e he
    · -- Case C: untreated overlap, no uploaded part — gap loop.
      rcases innerGaps_outcome uc u urest
          ⟨cs, slabSize mv fs cs, cs, slabSize mv fs cs, acc.to_copy, acc.to_download⟩
          hordcol with ⟨o1, o2, o3⟩ | ⟨c, ctail, hco, -, hcend, hgapgt, hfive, hmin, o1, o2, o3⟩
      · -- no absorption: the upload instruction covers the whole slab
        set R := innerGaps uc (u :: urest) true
          ⟨cs, slabSize mv fs cs, cs, slabSize mv fs cs, acc.to_copy, acc.to_download⟩ with hR
        have o1' : R.changed_start = cs := o1
        have o2' : R.changed_size = slabSize mv fs cs := o2
        have o3' : R.to_copy = acc.to_copy := o3
        refine ⟨{ acc with
            to_copy := R.to_copy,
            to_download := if 0 < R.tmp_cur_size then
                (R.tmp_cur_start, R.tmp_cur_size) :: R.to_download
              else R.to_download,
            to_upload := ⟨R.changed_start, R.changed_size, cs / mv + 1⟩ :: acc.to_upload,
            kept := acc.kept },
          (collectUntreated cs (cs + slabSize mv fs cs) remU).2, remP, ?_,
          hc4, hc5, hP1, hP2, hbge, ?_, ?_⟩
        · simp only [processSlab, hscan, hcol]
          rw [hR]
          rfl
        · intro hcnt x
          have hx := hcnt x
          rw [countCover_acc] at hx
          rw [countCover_acc]
          show countCover (mpRanges (⟨R.changed_start, R.changed_size, cs / mv + 1⟩ ::
              acc.to_upload)) x +
            countCover (mpRanges R.to_copy) x + countCover (fpRanges acc.kept) x = _
          rw [o1', o2', o3', countCover_mp_cons3]
          split_ifs at hx ⊢ <;> omega
        · rintro ⟨s1, s2⟩
          constructor
          · intro e he
            change e ∈ ⟨R.changed_start, R.changed_size, cs / mv + 1⟩ :: acc.to_upload at he
            rcases List.mem_cons.mp he with he | he
            · subst he
              rw [o1', o2']
              exact ⟨hcm, hfull.imp id Or.inl⟩
            · exact s1 e he
          · intro d hd
            change d ∈ R.to_copy at hd
            rw [o3'] at hd
            exact s2 d hd
      · -- absorption: the preceding copy entry grows by the gap
        set R := innerGaps uc (u :: urest) true
          ⟨cs, slabSize mv fs cs, cs, slabSize mv fs cs, acc.to_copy, acc.to_download⟩ with hR
        have hco' : acc.to_copy = c :: ctail := hco
        have hcend' : c.start + c.size = cs := hcend
        have hgapgt' : cs < u.start := hgapgt
        have hfive' : c.size + (u.start - cs) ≤ FIVE_GB := hfive
        have hmin' : MIN_MULTIPART_SIZE ≤ (cs + slabSize mv fs cs) - u.start := hmin
        have o1' : R.changed_start = u.start := o1
        have o2' : R.changed_size = slabSize mv fs cs - (u.start - cs) := o2
        have o3' : R.to_copy = { c with size := c.size + (u.start - cs) } :: ctail := o3
        refine ⟨{ acc with
            to_copy := R.to_copy,
            to_download := if 0 < R.tmp_cur_size then
                (R.tmp_cur_start, R.tmp_cur_size) :: R.to_download
              else R.to_download,
            to_upload := ⟨R.changed_start, R.changed_size, cs / mv + 1⟩ :: acc.to_upload,
            kept := acc.kept },
          (collectUntreated cs (cs + slabSize mv fs cs) remU).2, remP, ?_,
          hc4, hc5, hP1, hP2, hbge, ?_, ?_⟩
        · simp only [processSlab, hscan, hcol]
          rw [hR]
          rfl
        · intro hcnt x
          have hx := hcnt x
          rw [countCover_acc, hco', countCover_mp_cons] at hx
          rw [countCover_acc]
          show countCover (mpRanges (⟨R.changed_start, R.changed_size, cs / mv + 1⟩ ::
              acc.to_upload)) x +
            countCover (mpRanges R.to_copy) x + countCover (fpRanges acc.kept) x = _
          rw [o1', o2', o3', countCover_mp_cons3, countCover_mp_cons3]
          split_ifs at hx ⊢ <;> omega
        · rintro ⟨s1, s2⟩
          constructor
          · intro e he
            change e ∈ ⟨R.changed_start, R.changed_size, cs / mv + 1⟩ :: acc.to_upload at he
            rcases List.mem_cons.mp he with he | he
            · subst he
              rw [o1', o2']
              constructor
              · show slabSize mv fs cs - (u.start - cs) ≤ mv
                omega
              · rcases hfull with hf | hf
                · refine Or.inr (Or.inr ⟨?_, ?_⟩)
                  · show MIN_MULTIPART_SIZE ≤ slabSize mv fs cs - (u.start - cs)
                    omega
                  · show slabSize mv fs cs - (u.start - cs) < mv
                    omega
                · refine Or.inr (Or.inl ?_)
                  show u.start + (slabSize mv fs cs - (u.start - cs)) = fs
                  omega
            · exact s1 e he
          · intro d hd
            change d ∈ R.to_copy at hd
            rw [o3'] at hd
            rcases List.mem_cons.mp hd with hd | hd
            · subst hd
              show c.size + (u.start - cs) ≤ Nat.max mv FIVE_GB
              exact le_trans hfive' (le_max_right _ _)
            · refine s2 d ?_
              rw [hco']
              exact List.mem_cons_of_mem _ hd

/-- The slab walk under the planner's invariant: with enough fuel it
succeeds, consumes the whole upload list, the accumulated ranges end up
tiling exactly `[0, file_size)`, and the size discipline is preserved. -/
lemma planLoop_main (uc : Bool) (mv fs : Nat) (hmax : 0 < mv) :
    ∀ (fuel cs : Nat) (acc : PlanAccum) (remU : List UntreatedPart)
      (remP : List Filepart),
      fs ≤ cs + fuel * mv → cs ≤ fs → (mv ∣ cs ∨ fs ≤ cs) →
      (∀ u ∈ remU, 0 < u.size ∧ cs ≤ u.start) → UntreatedOrdered remU →
      PartsAligned mv fs remP → PartsOrdered remP →
      (∀ p ∈ remP, cs ≤ p.startpos) →
      ∃ acc2 remP2,
        planLoop uc mv fs fuel cs acc remU remP = some (acc2, remP2) ∧
        remP2 = [] ∧
        ((∀ x, countCover (accRanges acc) x = if x < cs then 1 else 0) →
          (∀ x, countCover (accRanges acc2) x = if x < fs then 1 else 0)) ∧
        (SizeInv mv fs acc.to_upload acc.to_copy →
          SizeInv mv fs acc2.to_upload acc2.to_copy) := by
  intro fuel
  induction fuel with
  | zero =>
    intro cs acc remU remP hfuel hcsle hdvd hU1 hU2 hP1 hP2 hP3
    have hcs : ¬ (cs < fs) := by omega
    have hremP : remP = [] := by
      cases remP with
      | nil => rfl
      | cons p rest =>
        obtain ⟨hpal, hpsz, hpend⟩ := hP1 p (by simp)
        have := hP3 p (by simp)
        omega
    refine ⟨acc, remP, ?_, hremP, ?_, fun hs => hs⟩
    · simp only [planLoop, if_neg hcs]
    · intro hcnt x
      have hx := hcnt x
      have : cs = fs := by omega
      rw [← this]
      exact hx
  | succ n ih =>
    intro cs acc remU remP hfuel hcsle hdvd hU1 hU2 hP1 hP2 hP3
    by_cases hlt : cs < fs
    · have hdvd' : mv ∣ cs := by
        rcases hdvd with h | h
        · exact h
        · omega
      obtain ⟨acc2, remU2, remP2, heq, hU1', hU2', hP1', hP2', hP3', hcnt', hsz'⟩ :=
        processSlab_spec uc mv fs cs acc remU remP hmax hdvd' hlt hU1 hU2 hP1 hP2 hP3
      obtain ⟨hcsz, hce, hfull, hcm⟩ := slabSize_spec mv fs cs hmax hlt
      have hfuel' : fs ≤ (cs + slabSize mv fs cs) + n * mv := by
        rcases hfull with hf | hf
        · have : cs + (n + 1) * mv = cs + slabSize mv fs cs + n * mv := by
            rw [hf]; ring
          omega
        · omega
      have hdvd2 : mv ∣ (cs + slabSize mv fs cs) ∨ fs ≤ cs + slabSize mv fs cs := by
        rcases hfull with hf | hf
        · refine Or.inl ?_
          rw [hf]
          exact Nat.dvd_add hdvd' dvd_rfl
        · exact Or.inr (le_of_eq hf.symm)
      obtain ⟨acc3, remP3, heq3, hnil3, hcnt3, hsz3⟩ :=
        ih (cs + slabSize mv fs cs) acc2 remU2 remP2 hfuel' hce hdvd2 hU1' hU2'
          hP1' hP2' hP3'
      refine ⟨acc3, remP3, ?_, hnil3, fun hcnt => hcnt3 (hcnt' hcnt),
        fun hs => hsz3 (hsz' hs)⟩
      simp only [planLoop, if_pos hlt, heq]
      exact heq3
    · have hremP : remP = [] := by
        cases remP with
        | nil => rfl
        | cons p rest =>
          obtain ⟨hpal, hpsz, hpend⟩ := hP1 p (by simp)
          have := hP3 p (by simp)
          omega
      refine ⟨acc, remP, ?_, hremP, ?_, fun hs => hs⟩
      · simp only [planLoop, if_neg hlt]
      · intro hcnt x
        have hx := hcnt x
        have : cs = fs := by omega
        rw [← this]
        exact hx

/-- Counting ranges of the assembled result equals counting the accumulated
ranges: reversing and appending `[]` change nothing. -/
lemma countCover_result (acc2 : PlanAccum) (x : Nat) :
    countCover (resultRanges ⟨acc2.to_upload.reverse, acc2.to_copy.reverse,
      acc2.to_download.reverse, acc2.cancel_upload.reverse,
      acc2.wait_upload_complete, acc2.kept.reverse ++ []⟩) x =
      countCover (accRanges acc2) x := by
  show countCover (mpRanges acc2.to_upload.reverse ++ mpRanges acc2.to_copy.reverse ++
    fpRanges (acc2.kept.reverse ++ [])) x = _
  rw [List.append_nil]
  have e1 : mpRanges acc2.to_upload.reverse = (mpRanges acc2.to_upload).reverse :=
    List.map_reverse _ _
  have e2 : mpRanges acc2.to_copy.reverse = (mpRanges acc2.to_copy).reverse :=
    List.map_reverse _ _
  have e3 : fpRanges acc2.kept.reverse = (fpRanges acc2.kept).reverse :=
    List.map_reverse _ _
  rw [e1, e2, e3, countCover_append, countCover_append, countCover_reverse,
    countCover_reverse, countCover_reverse, countCover_acc]

/-- C1: for every planner input satisfying the planner's documented
preconditions, the run succeeds and the byte ranges of `to_upload`,
`to_copy`, and the upload parts remaining in the part list cover every
offset of `[0, file_size)` exactly once — no gap, no overlap — and nothing
beyond the file end. -/
theorem C1_plan_covers_file (untreated_list : List UntreatedPart)
    (upload_list : List Filepart) (mv fs : Nat) (uc : Bool)
    (hmax : 0 < mv) (_hfs : 0 < fs)
    (hU1 : ∀ u ∈ untreated_list, 0 < u.size) (hU2 : UntreatedOrdered untreated_list)
    (hP1 : PartsAligned mv fs upload_list) (hP2 : PartsOrdered upload_list) :
    ∃ res, ExtractUploadPartsFromAllArea untreated_list upload_list mv fs uc = some res ∧
      ∀ x, countCover (resultRanges res) x = if x < fs then 1 else 0 := by
  have hfuel : fs ≤ 0 + (fs / mv + 1) * mv := by
    have h1 := Nat.div_add_mod fs mv
    have h2 := Nat.mod_lt fs hmax
    calc fs = mv * (fs / mv) + fs % mv := h1.symm
    _ ≤ mv * (fs / mv) + mv := Nat.add_le_add_left h2.le _
    _ = (fs / mv + 1) * mv := by ring
    _ = 0 + (fs / mv + 1) * mv := (zero_add _).symm
  obtain ⟨acc2, remP2, heq, hnil, hcnt, -⟩ :=
    planLoop_main uc mv fs hmax (fs / mv + 1) 0 ⟨[], [], [], [], false, []⟩
      untreated_list upload_list hfuel (Nat.zero_le _) (Or.inl (dvd_zero mv))
      (fun u hu => ⟨hU1 u hu, Nat.zero_le _⟩) hU2 hP1 hP2 (fun p _ => Nat.zero_le _)
  subst hnil
  refine ⟨⟨acc2.to_upload.reverse, acc2.to_copy.reverse, acc2.to_download.reverse,
    acc2.cancel_upload.reverse, acc2.wait_upload_complete,
    acc2.kept.reverse ++ []⟩, ?_, ?_⟩
  · simp only [ExtractUploadPartsFromAllArea, heq]
  · intro x
    rw [countCover_result]
    refine hcnt ?_ x
    intro y
    simp [accRanges, mpRanges, fpRanges, countCover]

/-- Witness for `C1_plan_covers_file`: `max = 10`, a 25-byte file entirely
untreated, empty part list; offset 12 is covered exactly once and offset 30
is not covered. -/
theorem C1_witness :
    0 < (10 : Nat) ∧ 0 < (25 : Nat) ∧
      (∀ u ∈ [(⟨0, 25⟩ : UntreatedPart)], 0 < u.size) ∧
      UntreatedOrdered [⟨0, 25⟩] ∧ PartsAligned 10 25 [] ∧ PartsOrdered [] ∧
      ∃ res, ExtractUploadPartsFromAllArea [⟨0, 25⟩] [] 10 25 false = some res ∧
        ∀ x, countCover (resultRanges res) x = if x < 25 then 1 else 0 :=
  ⟨by decide, by decide, by decide, by simp [UntreatedOrdered],
    by simp [PartsAligned], by simp [PartsOrdered],
    C1_plan_covers_file [⟨0, 25⟩] [] 10 25 false (by decide) (by decide)
      (by decide) (by simp [UntreatedOrdered]) (by simp [PartsAligned])
      (by simp [PartsOrdered])⟩

/-- C2 (amended): for every planner input satisfying the planner's
preconditions the run succeeds, every `to_upload` entry has size at most
`max_part_size` — exactly `max_part_size` unless it ends the file or was
shortened by copy-absorption, in which case it still has at least
`MIN_MULTIPART_SIZE` bytes — and every `to_copy` entry has size at most the
larger of `max_part_size` and the 5 GiB copy limit (a copy entry extended by
absorption may exceed `max_part_size`, see `C2_counterexample`). -/
theorem C2_plan_sizes (untreated_list : List UntreatedPart)
    (upload_list : List Filepart) (mv fs : Nat) (uc : Bool)
    (hmax : 0 < mv) (_hfs : 0 < fs)
    (hU1 : ∀ u ∈ untreated_list, 0 < u.size) (hU2 : UntreatedOrdered untreated_list)
    (hP1 : PartsAligned mv fs upload_list) (hP2 : PartsOrdered upload_list) :
    ∃ res, ExtractUploadPartsFromAllArea untreated_list upload_list mv fs uc = some res ∧
      SizeInv mv fs res.to_upload res.to_copy := by
  have hfuel : fs ≤ 0 + (fs / mv + 1) * mv := by
    have h1 := Nat.div_add_mod fs mv
    have h2 := Nat.mod_lt fs hmax
    calc fs = mv * (fs / mv) + fs % mv := h1.symm
    _ ≤ mv * (fs / mv) + mv := Nat.add_le_add_left h2.le _
    _ = (fs / mv + 1) * mv := by ring
    _ = 0 + (fs / mv + 1) * mv := (zero_add _).symm
  obtain ⟨acc2, remP2, heq, hnil, -, hsz⟩ :=
    planLoop_main uc mv fs hmax (fs / mv + 1) 0 ⟨[], [], [], [], false, []⟩
      untreated_list upload_list hfuel (Nat.zero_le _) (Or.inl (dvd_zero mv))
      (fun u hu => ⟨hU1 u hu, Nat.zero_le _⟩) hU2 hP1 hP2 (fun p _ => Nat.zero_le _)
  subst hnil
  obtain ⟨s1, s2⟩ := hsz ⟨by simp, by simp⟩
  refine ⟨⟨acc2.to_upload.reverse, acc2.to_copy.reverse, acc2.to_download.reverse,
    acc2.cancel_upload.reverse, acc2.wait_upload_complete,
    acc2.kept.reverse ++ []⟩, ?_, ?_, ?_⟩
  · simp only [ExtractUploadPartsFromAllArea, heq]
  · intro e he
    exact s1 e (List.mem_reverse.mp he)
  · intro d hd
    exact s2 d (List.mem_reverse.mp hd)

/-- Witness for `C2_plan_sizes` at the same concrete input as C1. -/
theorem C2_witness :
    0 < (10 : Nat) ∧ 0 < (25 : Nat) ∧
      (∀ u ∈ [(⟨0, 25⟩ : UntreatedPart)], 0 < u.size) ∧
      UntreatedOrdered [⟨0, 25⟩] ∧ PartsAligned 10 25 [] ∧ PartsOrdered [] ∧
      ∃ res, ExtractUploadPartsFromAllArea [⟨0, 25⟩] [] 10 25 false = some res ∧
        SizeInv 10 25 res.to_upload res.to_copy :=
  ⟨by decide, by decide, by decide, by simp [UntreatedOrdered],
    by simp [PartsAligned], by simp [PartsOrdered],
    C2_plan_sizes [⟨0, 25⟩] [] 10 25 false (by decide) (by decide)
      (by decide) (by simp [UntreatedOrdered]) (by simp [PartsAligned])
      (by simp [PartsOrdered])⟩

end S3fs
